import Mathlib

/-!
Verification of the tree-restoration algorithms of the `wol` repository
(notebook `restore_tree.ipynb`): the directional copy `walk_copy`, the
rerooter `root_above`, and the restorers `restore_rooting`,
`restore_node_labels` and `restore_node_order`.

Trees are embedded shallowly: a node carries an optional name, an optional
branch length (a rational standing for the Python float) and an ordered
list of children.  Python's parent pointers are represented by zipper
contexts (lists of `Frame`s, innermost first) and by paths (lists of child
indices) into a fixed tree.  Fallible Python code (raised exceptions)
becomes `Except Err`.
-/

namespace Wol

/-- One vertex of a phylogenetic tree: optional name, optional branch
length to the parent, ordered children.  Mirrors `skbio.TreeNode` as used
by the notebook. -/
inductive TNode where
  | mk (name : Option String) (length : Option ℚ) (children : List TNode)
deriving Repr

def TNode.name : TNode → Option String
  | .mk n _ _ => n

def TNode.length : TNode → Option ℚ
  | .mk _ l _ => l

def TNode.children : TNode → List TNode
  | .mk _ _ cs => cs

/-- Decidable equality for trees (structural, like comparing the trees
node by node). -/
def TNode.beq : TNode → TNode → Bool
  | .mk n₁ l₁ cs₁, .mk n₂ l₂ cs₂ =>
    n₁ == n₂ && l₁ == l₂ && beqL cs₁ cs₂
where
  beqL : List TNode → List TNode → Bool
    | [], [] => true
    | c :: cs, d :: ds => TNode.beq c d && beqL cs ds
    | _, _ => false

instance : BEq TNode := ⟨TNode.beq⟩

theorem TNode.beq_refl : (t : TNode) → TNode.beq t t = true
  | .mk n l cs => by
    simp only [TNode.beq, Bool.and_eq_true, beq_self_eq_true, true_and]
    exact beqL_refl cs
where
  beqL_refl : (cs : List TNode) → TNode.beq.beqL cs cs = true
    | [] => rfl
    | c :: cs => by
      simp only [TNode.beq.beqL, Bool.and_eq_true]
      exact ⟨TNode.beq_refl c, beqL_refl cs⟩

theorem TNode.eq_of_beq : {s t : TNode} → TNode.beq s t = true → s = t
  | .mk n₁ l₁ cs₁, .mk n₂ l₂ cs₂, h => by
    simp only [TNode.beq, Bool.and_eq_true, beq_iff_eq] at h
    obtain ⟨⟨hn, hl⟩, hc⟩ := h
    subst hn; subst hl
    rw [eqL_of_beqL hc]
where
  eqL_of_beqL : {cs ds : List TNode} → TNode.beq.beqL cs ds = true → cs = ds
    | [], [], _ => rfl
    | c :: cs, d :: ds, h => by
      simp only [TNode.beq.beqL, Bool.and_eq_true] at h
      rw [TNode.eq_of_beq h.1, eqL_of_beqL h.2]
    | [], _ :: _, h => by simp [TNode.beq.beqL] at h
    | _ :: _, [], h => by simp [TNode.beq.beqL] at h

instance : DecidableEq TNode := fun s t =>
  if h : TNode.beq s t = true then
    .isTrue (TNode.eq_of_beq h)
  else
    .isFalse (fun he => h (he ▸ TNode.beq_refl s))

/-- Node size (number of vertices); used for size arguments about
subtrees. -/
def TNode.size : TNode → ℕ
  | .mk _ _ cs => 1 + sizeL cs
where
  sizeL : List TNode → ℕ
    | [] => 0
    | c :: cs => TNode.size c + sizeL cs

/-- Errors raised by the notebook's functions (`ValueError`s with the
listed messages, plus the `TypeError`/`AttributeError`/`KeyError`/
`MissingNodeError` escapes of the Python runtime and of scikit-bio). -/
inductive Err where
  | cannotWalk        -- "Cannot walk from root of an rooted tree."
  | notNeighbors      -- "Source and node are not neighbors."
  | typeErr           -- TypeError (arithmetic with None length)
  | attrErr           -- AttributeError (None.parent)
  | pathErr           -- modelling artifact: invalid path into a tree
  | sourceNotRooted   -- "Source tree must be rooted."
  | targetNotUnrooted -- "Target tree must be unrooted."
  | taxaMismatch      -- "Taxa in source and target trees do not match."
  | duplicateLabel    -- "Duplicated node label ... found."
  | missingLabel      -- "There are empty node label(s) in the source tree."
  | labelNotFound     -- skbio MissingNodeError from find()
  | childMismatch     -- KeyError from name2child lookup
deriving DecidableEq, Repr

/-- A zipper frame: everything known about the parent of the focused
node except the focused subtree itself.  `before`/`after` are the
siblings to the left/right, in order. -/
structure Frame where
  name : Option String
  length : Option ℚ
  before : List TNode
  after : List TNode
deriving DecidableEq, Repr

/-- Rebuild the parent node from its frame and the focused subtree. -/
def plugF (f : Frame) (t : TNode) : TNode :=
  .mk f.name f.length (f.before ++ t :: f.after)

/-- Locate the node addressed by a path (list of child indices) in a
tree, returning the zipper context (innermost frame first) and the
focused subtree. -/
def locate : TNode → List ℕ → Option (List Frame × TNode)
  | t, [] => some ([], t)
  | t, i :: p =>
    match t.children[i]? with
    | some c =>
      (locate c p).map (fun q =>
        (q.1 ++ [⟨t.name, t.length, t.children.take i, t.children.drop (i + 1)⟩], q.2))
    | none => none

/-- The subtree addressed by a path. -/
def subtreeAt (t : TNode) (p : List ℕ) : Option TNode :=
  (locate t p).map (·.2)

/-- The neighbor of a node that is passed to `walk_copy` as `src`:
its parent (Python passes `node.parent`, which is `None` at the apex),
one of its children (by position), or — reachable only at a basal node of
a strictly rooted tree — its unique sibling. -/
inductive Src where
  | par : Src
  | child : ℕ → Src
  | sib : Src
deriving DecidableEq, Repr

instance : Inhabited TNode := ⟨.mk none none []⟩

/-- `walk_copy` restricted to the move `down`: copying a subtree away
from its parent reproduces the subtree unchanged (name, length and
children are all kept), as the recursion

  `res.length = node.length; res.extend([walk_copy(c, node) for c in children])`

does for every node below the start. -/
def walkDown : TNode → TNode
  | .mk n l cs => .mk n l (walkDownL cs)
where
  walkDownL : List TNode → List TNode
    | [] => []
    | c :: cs => walkDown c :: walkDownL cs

/-- `walk_copy` at a basal node of a strictly rooted tree walking from
its sibling (move `bottom`): the apex disappears and the two basal branch
lengths are merged (`res.length = src.length + node.length`); Python
raises `TypeError` when either length is `None`. -/
def walkBottom (t : TNode) (srcLen : Option ℚ) : Except Err TNode :=
  match srcLen, t.length with
  | some a, some b => .ok (.mk t.name (some (a + b)) (walkDown.walkDownL t.children))
  | _, _ => .error .typeErr

/-- The directional copy `walk_copy(node, src)` of the notebook.  The
focused node is given by its subtree `t` and zipper context `ctx`
(innermost frame first; `[]` means `node` is the apex).  The position
(`root`/`basal`/`derived`), the rootedness test and the move
classification (`down`/`up`/`top`/`bottom`/`n/a`) follow the Python code
line by line; the recursive `walk_copy(child, node)` calls, which are
always `down` moves, are rendered by `walkDown`, and the
`walk_copy(sibling, node)` call of the `top` move, which is always a
`bottom` move, is rendered by `walkBottom`. -/
def walkCopy : List Frame → TNode → Src → Except Err TNode
  | [], t, s =>
    -- position root
    if t.children.length = 2 then .error .cannotWalk
    else
      match s with
      | .par =>
        -- src is None and node.parent is None, so `src is parent`: move down
        .ok (.mk t.name t.length (walkDown.walkDownL t.children))
      | .child i =>
        match t.children[i]? with
        | some c =>
          -- move up at the root: keep the apex, do not re-insert a parent
          .ok (.mk t.name c.length (walkDown.walkDownL (t.children.eraseIdx i)))
        | none => .error .notNeighbors
      | .sib => .error .notNeighbors
  | f :: ctx, t, s =>
    if ctx = [] ∧ (f.before ++ f.after).length = 1 then
      -- position basal with a strictly rooted apex (parent has 2
      -- children); the unique sibling heads `f.before ++ f.after`
      match s with
      | .sib =>
        -- move bottom
        walkBottom t ((f.before ++ f.after).headI).length
      | .child i =>
        -- move top
        match t.children[i]? with
        | some c => do
          let sc ← walkBottom ((f.before ++ f.after).headI) t.length
          .ok (.mk t.name c.length (walkDown.walkDownL (t.children.eraseIdx i) ++ [sc]))
        | none => .error .notNeighbors
      | .par => .error .notNeighbors
    else
      -- position basal with an unrooted apex, or position derived
      match s with
      | .par =>
        -- move down
        .ok (.mk t.name t.length (walkDown.walkDownL t.children))
      | .child i =>
        match t.children[i]? with
        | some c => do
          -- move up: copy the other children, then bring the parent in
          let up ← walkCopy ctx (plugF f t) (.child f.before.length)
          .ok (.mk t.name c.length (walkDown.walkDownL (t.children.eraseIdx i) ++ [up]))
        | none => .error .notNeighbors
      | .sib => .error .notNeighbors

/-- Overwrite a node's branch length. -/
def setLen (t : TNode) (l : ℚ) : TNode :=
  .mk t.name (some l) t.children

/-- The rerooter `root_above(node, name=None)` of the notebook, with the
node given by its path into the tree.  `left = walk_copy(node,
node.parent)`, `right = walk_copy(node.parent, node)`, both basal lengths
set to `node.length / 2`, new apex with exactly `[left, right]`.  At the
apex itself (`p = []`) the Python call crashes: the left walk raises
`Cannot walk from root` when the tree is strictly rooted, and otherwise
the right walk `walk_copy(None, node)` dies on `None.parent`
(`AttributeError`). -/
def rootAbove (T : TNode) (p : List ℕ) (nm : Option String) : Except Err TNode :=
  match p with
  | [] => if T.children.length = 2 then .error .cannotWalk else .error .attrErr
  | _ :: _ =>
    match locate T p with
    | none => .error .pathErr
    | some (ctx, t) => do
      let left ← walkCopy ctx t .par
      let right ←
        match ctx with
        | [] => .error .pathErr  -- unreachable: p ≠ [] forces a frame
        | f :: ctx' => walkCopy ctx' (plugF f t) (.child f.before.length)
      match t.length with
      | some l => .ok (.mk nm none [setLen left (l / 2), setLen right (l / 2)])
      | none => .error .typeErr

/-! ## Well-formedness predicates used to state the general theorems -/

mutual

/-- Every node of the subtree — including its root — has a defined
branch length (the data model allows `None` only at the absolute
apex). -/
def allLens : TNode → Bool
  | .mk _ l cs => l.isSome && allLensL cs

/-- `allLens` over a forest. -/
def allLensL : List TNode → Bool
  | [] => true
  | c :: cs => allLens c && allLensL cs

end

/-- Rebuild the whole tree from a zipper context (innermost frame
first) and the focused subtree. -/
def plugAll : List Frame → TNode → TNode
  | [], t => t
  | f :: ctx, t => plugAll ctx (plugF f t)

/-- Conditions under which an upward `walk_copy` (`src` a child of the
focused node) cannot fail: the walk climbs the context; at the apex the
tree must not be strictly rooted (else `CannotWalkFromRootOfRootedTree`),
and at a basal node under a strictly rooted apex the `bottom` length
arithmetic needs both the node's and the sibling's lengths defined. -/
def upOK : List Frame → TNode → Prop
  | [], t => t.children.length ≠ 2
  | [f], t =>
    ∀ sib, f.before ++ f.after = [sib] →
      sib.length.isSome = true ∧ t.length.isSome = true
  | f :: g :: ctx, t => upOK (g :: ctx) (plugF f t)

/-- All trees hanging off a frame have defined lengths throughout. -/
def frameSidesOK (f : Frame) : Prop :=
  ∀ s ∈ f.before ++ f.after, allLens s = true

/-- Every frame of an inner (non-apex) context piece has a defined
length and well-lengthed side trees. -/
def innerOK : List Frame → Prop
  | [] => True
  | f :: ctx => (f.length.isSome = true ∧ frameSidesOK f) ∧ innerOK ctx

/-! ## Tips, taxa and counting (scikit-bio `tips`, `count(tips=True)`) -/

mutual

/-- The tip names of the clade rooted at a node, left to right: the
node's own name if it is a tip, otherwise the tip names below it.  This
is the "descendant tip set" notion of the spec, in which a tip child
contributes itself. -/
def cladeTaxa : TNode → List (Option String)
  | .mk n _ [] => [n]
  | .mk _ _ (c :: cs) => cladeTaxaL (c :: cs)

/-- Tip names of a forest, left to right. -/
def cladeTaxaL : List TNode → List (Option String)
  | [] => []
  | c :: cs => cladeTaxa c ++ cladeTaxaL cs

end

/-- `set(x.name for x in node.tips())` before deduplication: scikit-bio's
`tips()` iterates the tips strictly below the node (the node itself is
excluded even when it is a tip), in postorder, i.e. left-to-right. -/
def tipNames (t : TNode) : List (Option String) :=
  cladeTaxaL t.children

/-- `node.count(tips=True)`: the number of tips strictly below the
node. -/
def countTips (t : TNode) : ℕ :=
  (tipNames t).length

/-- Equality of Python sets built from two lists. -/
def seteq (A B : List (Option String)) : Bool :=
  A.all (· ∈ B) && B.all (· ∈ A)

/-! ## Lowest common ancestor and scikit-bio `root_at` -/

/-- Whether all given names occur among the clade's taxa. -/
def containsAll (c : TNode) (names : List (Option String)) : Bool :=
  names.all (· ∈ cladeTaxa c)

mutual

/-- Modelled from the spec: `lowestCommonAncestor(res, tip names)`
(scikit-bio's `TreeNode.lca`, an external dependency not part of this
repository) — "the deepest node that is an ancestor of all members of a
given tip set".  Returns the path of the LCA: descend into a child as
long as one child's clade contains every requested name. -/
def lcaPath : TNode → List (Option String) → List ℕ
  | .mk _ _ cs, names => lcaL cs names 0

/-- Helper of `lcaPath`: scan the children for the first one containing
all requested names. -/
def lcaL : List TNode → List (Option String) → ℕ → List ℕ
  | [], _, _ => []
  | c :: cs, names, i =>
    if containsAll c names then i :: lcaPath c names
    else lcaL cs names (i + 1)

end

mutual

/-- First tip at-or-below a node whose name is outside `bad`, as a path
(tips are enumerated left to right, the postorder tip order of
scikit-bio's `tips()`). -/
def firstBadTip : TNode → List (Option String) → Option (List ℕ)
  | .mk n _ [], bad => if n ∈ bad then none else some []
  | .mk _ _ (c :: cs), bad => firstBadTipL (c :: cs) bad 0

/-- Helper of `firstBadTip`: scan a forest. -/
def firstBadTipL : List TNode → List (Option String) → ℕ → Option (List ℕ)
  | [], _, _ => none
  | c :: cs, bad, i =>
    match firstBadTip c bad with
    | some p => some (i :: p)
    | none => firstBadTipL cs bad (i + 1)

end

/-- `for tip in res.tips(): if tip.name not in outgroup: ...` — the first
tip strictly below the apex whose name is not in the given set. -/
def firstTipNotIn (t : TNode) (bad : List (Option String)) : Option (List ℕ) :=
  firstBadTipL t.children bad 0

/-- The upward part of scikit-bio's `unrooted_copy`: copy the ancestor
chain (outermost ancestor last), where the copy of an ancestor takes the
name and length of the child it was entered from, its other children
(down-copied, in order) and, unless it is the old apex, the copy of its
own parent appended last. -/
def upRA : List Frame → Option String → Option ℚ → List TNode
  | [], _, _ => []
  | f :: ctx, cn, cl =>
    [.mk cn cl (walkDown.walkDownL (f.before ++ f.after) ++ upRA ctx f.name f.length)]

/-- Modelled from the spec: scikit-bio's `root_at(node)` (an external
dependency not part of this repository), which the notebook's comment
describes as generating "an unrooted tree in which the node, its parent
and its sibling(s) become basal nodes".  Behavior fixed per the
notebook's recorded outputs: the chosen node becomes the apex, renamed
`"root"` with no length; its children are copied unchanged followed by
the upward copy of its parent, and names/lengths shift one step along
the upward path (each ancestor's copy takes the name and length of the
child it was entered from). -/
def rootAt (T : TNode) (p : List ℕ) : TNode :=
  match locate T p with
  | some (ctx, t) =>
    .mk (some "root") none (walkDown.walkDownL t.children ++ upRA ctx t.name t.length)
  | none => T

/-! ## Rooting restorer (`restore_rooting`) -/

/-- `min(counts, key=counts.get)` over `{x: x.count(tips=True) for x in
src.children}`: Python's `min` returns the first key attaining the
minimum, and dict iteration order is insertion order, i.e. child order. -/
def outChild (src : TNode) : TNode :=
  match src.children with
  | [] => src  -- unreachable: guarded by the rooted check
  | c :: cs => cs.foldl (fun best x => if countTips x < countTips best then x else best) c

/-- The root child of `src` that `restore_rooting` does **not** pick as
the outgroup — "the other is the ingroup". -/
def inChild (src : TNode) : TNode :=
  match src.children with
  | [c1, c2] => if countTips c2 < countTips c1 then c1 else c2
  | _ => src

/-- `restore_rooting(src, trg)` of the notebook: precondition checks,
outgroup selection, LCA location with the degenerate-case `root_at` swap,
and the final `root_above`. -/
def restoreRooting (src trg : TNode) : Except Err TNode :=
  if src.children.length ≠ 2 then .error .sourceNotRooted
  else if trg.children.length = 2 then .error .targetNotUnrooted
  else if ¬ seteq (tipNames src) (tipNames trg) then .error .taxaMismatch
  else
    -- res = trg.copy()
    let res := trg
    let outgroup := tipNames (outChild src)
    let lca := lcaPath res outgroup
    if lca = [] then
      -- `lca is res`: outgroup is split across basal clades
      match firstTipNotIn res outgroup with
      | some tp =>
        let res' := rootAt res tp.dropLast  -- res.root_at(tip.parent)
        rootAbove res' (lcaPath res' outgroup) none
      | none =>
        -- the loop finds no such tip; lca is recomputed unchanged
        rootAbove res (lcaPath res outgroup) none
    else rootAbove res lca none

/-! ## Traversals -/

mutual

/-- Preorder traversal (`TreeNode.traverse()`: self before children). -/
def preT : TNode → List TNode
  | .mk n l cs => .mk n l cs :: preL cs

/-- Preorder traversal of a forest. -/
def preL : List TNode → List TNode
  | [] => []
  | c :: cs => preT c ++ preL cs

end

mutual

/-- Postorder traversal (`TreeNode.postorder()`: children before self);
scikit-bio's `non_tips`/`tips` iterators follow it. -/
def postT : TNode → List TNode
  | .mk n l cs => postL cs ++ [.mk n l cs]

/-- Postorder traversal of a forest. -/
def postL : List TNode → List TNode
  | [] => []
  | c :: cs => postT c ++ postL cs

end

/-! ## Label restorer (`restore_node_labels`) -/

/-- One step of the `label2taxa` collection of `restore_node_labels`:
tips are skipped, `None` and empty labels are skipped, a repeated label
fails with `DuplicateLabel`, and a fresh label is appended with its
tip-name set (the association list keeps the Python dict's insertion
order). -/
def collectStep (tbl : List (String × List (Option String))) (node : TNode) :
    Except Err (List (String × List (Option String))) :=
  if node.children.isEmpty then .ok tbl
  else
    match node.name with
    | some l =>
      if l = "" then .ok tbl
      else if tbl.any (fun e => e.1 = l) then .error .duplicateLabel
      else .ok (tbl ++ [(l, tipNames node)])
    | none => .ok tbl

/-- First phase of `restore_node_labels`: collect `label2taxa` over the
non-tip nodes of `src` (postorder, including self). -/
def collectLabels (src : TNode) : Except Err (List (String × List (Option String))) :=
  (postT src).foldlM collectStep []

mutual

/-- Second phase of `restore_node_labels`: for every non-tip node of the
copy, if its tip-name set equals some mapped set, assign the first such
label (dict iteration order = insertion order). -/
def relabel (tbl : List (String × List (Option String))) : TNode → TNode
  | .mk n l [] => .mk n l []
  | .mk n l (c :: cs) =>
    let n' :=
      match tbl.find? (fun e => seteq e.2 (cladeTaxaL (c :: cs))) with
      | some e => some e.1
      | none => n
    .mk n' l (relabelL tbl (c :: cs))

/-- `relabel` over a forest. -/
def relabelL (tbl : List (String × List (Option String))) : List TNode → List TNode
  | [] => []
  | c :: cs => relabel tbl c :: relabelL tbl cs

end

/-- `restore_node_labels(src, trg)` of the notebook. -/
def restoreNodeLabels (src trg : TNode) : Except Err TNode := do
  let tbl ← collectLabels src
  .ok (relabel tbl trg)

/-! ## Order restorer (`restore_node_order`) -/

mutual

/-- scikit-bio's `find(name)` on a tree whose caches resolve a name to
the first node carrying it in traversal order: the path of the first
node (preorder) whose name equals the target. -/
def findPathN : TNode → Option String → Option (List ℕ)
  | .mk n _ cs, tgt =>
    if n = tgt then some [] else findPathL cs tgt 0

/-- `findPathN` over a forest. -/
def findPathL : List TNode → Option String → ℕ → Option (List ℕ)
  | [], _, _ => none
  | c :: cs, tgt, i =>
    match findPathN c tgt with
    | some p => some (i :: p)
    | none => findPathL cs tgt (i + 1)

end

/-- Apply a fallible modification to the node at a path, rebuilding the
tree around it. -/
def updateAt : TNode → List ℕ → (TNode → Except Err TNode) → Except Err TNode
  | t, [], g => g t
  | .mk n l cs, i :: p, g =>
    match cs[i]? with
    | some c => do
      let c' ← updateAt c p g
      .ok (.mk n l (cs.set i c'))
    | none => .error .pathErr

/-- `name2child[nm]` where `name2child` is built by
`for child in ntrg.children: name2child[child.name] = child`:
on duplicate names the later child overwrites the earlier one. -/
def lookupChild (cs : List TNode) (nm : Option String) : Option TNode :=
  cs.reverse.find? (fun c => c.name == nm)

/-- One reordering step of `restore_node_order`: clear the target node's
children and re-append them following the source child order, resolving
each source child name through `name2child` (`KeyError` → mismatch).
Children of the target node whose names are not mentioned are dropped. -/
def reorderChildren (n : TNode) (srcChildren : List TNode) : Except Err TNode := do
  let cs ← srcChildren.mapM (fun sc =>
    match lookupChild n.children sc.name with
    | some c => Except.ok c
    | none => Except.error Err.childMismatch)
  .ok (.mk n.name n.length cs)

/-- One step of `restore_node_order`: skip tips; require a non-empty
label (`MissingLabel`); find the like-named node in the working copy
(`LabelNotFound`); rebuild its children in the source order. -/
def orderStep (res : TNode) (nsrc : TNode) : Except Err TNode :=
  if nsrc.children.isEmpty then .ok res
  else
    match nsrc.name with
    | none => .error .missingLabel
    | some lbl =>
      if lbl = "" then .error .missingLabel
      else
        match findPathN res (some lbl) with
        | none => .error .labelNotFound
        | some p => updateAt res p (fun n => reorderChildren n nsrc.children)

/-- `restore_node_order(src, trg)` of the notebook: traverse `src` in
preorder, applying `orderStep` for each node to the working copy. -/
def restoreNodeOrder (src trg : TNode) : Except Err TNode :=
  (preT src).foldlM orderStep trg

/-- The name of every node of a tree, in preorder; used to state the
label-uniqueness hypotheses of the idempotence property. -/
def namesT (t : TNode) : List (Option String) := (preT t).map TNode.name

/-- `namesT` over a forest. -/
def namesL (cs : List TNode) : List (Option String) := (preL cs).map TNode.name

mutual

/-- A node of the working copy mirrors a source subtree: same name, the
same child names in the same order, and recursively so below every
internal source child (source tips impose nothing on the paired child). -/
def mirrorB : TNode → TNode → Bool
  | .mk n _ cs, v =>
    (v.name == n) && (v.children.map TNode.name == cs.map TNode.name)
      && mirrorL cs v.children

/-- `mirrorB` over the paired children lists. -/
def mirrorL : List TNode → List TNode → Bool
  | [], _ => true
  | _ :: _, [] => false
  | c :: cs, d :: ds =>
    (if c.children.isEmpty then true else mirrorB c d) && mirrorL cs ds

end

/-! ## Example trees used in concrete statements -/

/-- A tip with a name and a branch length. -/
def tip (n : String) (l : ℚ) : TNode := .mk (some n) (some l) []

/-- The golden-scenario tree
`(((a:1.0,b:0.8)c:2.4,(d:0.8,e:0.6)f:1.2)g:0.4,(h:0.5,i:0.7)j:1.8)k;`. -/
def goldenTree : TNode :=
  .mk (some "k") none
    [ .mk (some "g") (some (4/10))
        [ .mk (some "c") (some (24/10)) [tip "a" 1, tip "b" (8/10)],
          .mk (some "f") (some (12/10)) [tip "d" (8/10), tip "e" (6/10)] ],
      .mk (some "j") (some (18/10)) [tip "h" (5/10), tip "i" (7/10)] ]

/-- The golden-scenario expected result
`((a:1.0,b:0.8)c:1.2,((d:0.8,e:0.6)f:1.2,(h:0.5,i:0.7)j:2.2)g:1.2);`. -/
def goldenExpected : TNode :=
  .mk none none
    [ .mk (some "c") (some (12/10)) [tip "a" 1, tip "b" (8/10)],
      .mk (some "g") (some (12/10))
        [ .mk (some "f") (some (12/10)) [tip "d" (8/10), tip "e" (6/10)],
          .mk (some "j") (some (22/10)) [tip "h" (5/10), tip "i" (7/10)] ] ]

/-- A strictly rooted tree `((a:1,b:1)x:1,(c:1,d:1)y:1)r;` whose basal
node `x` (path `[0]`) witnesses the `root_above` failure on basal
children of a rooted apex. -/
def basalRootedTree : TNode :=
  .mk (some "r") none
    [ .mk (some "x") (some 1) [tip "a" 1, tip "b" 1],
      .mk (some "y") (some 1) [tip "c" 1, tip "d" 1] ]

instance : DecidableEq (Except Err TNode) := fun a b =>
  match a, b with
  | .ok x, .ok y =>
    if h : x = y then .isTrue (by rw [h]) else .isFalse (by simp [h])
  | .error e, .error e' =>
    if h : e = e' then .isTrue (by rw [h]) else .isFalse (by simp [h])
  | .ok _, .error _ => .isFalse (by simp)
  | .error _, .ok _ => .isFalse (by simp)

/-- The spec's postcondition shape for `restore_rooting`: the tree has
exactly two root children whose clade-taxa sets are the outgroup and the
ingroup, in either order. -/
def rootBipartitionB (C : TNode) (og ig : List (Option String)) : Bool :=
  match C.children with
  | [l, r] =>
    (seteq (cladeTaxa l) og && seteq (cladeTaxa r) ig) ||
    (seteq (cladeTaxa l) ig && seteq (cladeTaxa r) og)
  | _ => false

/-! ## Claim-following variants (for refinement comparisons) -/

/-- Following the claim's words for C4: the lexicographically smallest
tip name of a clade. -/
def lexMinTip (t : TNode) : Option String :=
  ((tipNames t).filterMap id).min?

/-- Following the claim's words for C4: pick the root child with fewer
descendant tips and, when the tip counts are equal, the clade whose
lexicographically smallest tip name is smaller. -/
def outChildLex (src : TNode) : TNode :=
  match src.children with
  | [c1, c2] =>
    if countTips c1 < countTips c2 then c1
    else if countTips c2 < countTips c1 then c2
    else
      match lexMinTip c1, lexMinTip c2 with
      | some s1, some s2 => if s1 ≤ s2 then c1 else c2
      | _, _ => c1
  | _ => src

/-- Following the claim's words for C4: `restore_rooting` with the
outgroup chosen by `outChildLex` instead of the Python
`min`-over-insertion-order; everything else is unchanged. -/
def restoreRootingLex (src trg : TNode) : Except Err TNode :=
  if src.children.length ≠ 2 then .error .sourceNotRooted
  else if trg.children.length = 2 then .error .targetNotUnrooted
  else if ¬ seteq (tipNames src) (tipNames trg) then .error .taxaMismatch
  else
    let res := trg
    let outgroup := tipNames (outChildLex src)
    let lca := lcaPath res outgroup
    if lca = [] then
      match firstTipNotIn res outgroup with
      | some tp =>
        let res' := rootAt res tp.dropLast
        rootAbove res' (lcaPath res' outgroup) none
      | none => rootAbove res (lcaPath res outgroup) none
    else rootAbove res lca none

/-- Following the claim's words for C5: `restore_rooting` whose
degenerate-case recovery calls `rootAbove` on the chosen tip's parent
("calling `rootAbove` on that tip's parent to obtain a different
unrooted representation of the same tree") instead of scikit-bio's
`root_at`; everything else is unchanged. -/
def restoreRootingC5 (src trg : TNode) : Except Err TNode :=
  if src.children.length ≠ 2 then .error .sourceNotRooted
  else if trg.children.length = 2 then .error .targetNotUnrooted
  else if ¬ seteq (tipNames src) (tipNames trg) then .error .taxaMismatch
  else
    let res := trg
    let outgroup := tipNames (outChild src)
    let lca := lcaPath res outgroup
    if lca = [] then
      match firstTipNotIn res outgroup with
      | some tp => do
        let res' ← rootAbove res tp.dropLast none
        rootAbove res' (lcaPath res' outgroup) none
      | none => rootAbove res (lcaPath res outgroup) none
    else rootAbove res lca none

/-! ## Concrete inputs for the remaining claims -/

/-- `((b:1,c:1)X:1,(a:1,d:1)Y:1)R;` — the two root clades tie at 2 tips
each; the clade containing the lexicographically smallest tip `a` is the
second one. -/
def tieSrc : TNode :=
  .mk (some "R") none
    [ .mk (some "X") (some 1) [tip "b" 1, tip "c" 1],
      .mk (some "Y") (some 1) [tip "a" 1, tip "d" 1] ]

/-- `((b:1,c:1)N:1,a:1,d:1)p;` — unrooted (3 basal children), same taxa
as `tieSrc`. -/
def tieTrg : TNode :=
  .mk (some "p") none
    [ .mk (some "N") (some 1) [tip "b" 1, tip "c" 1],
      tip "a" 1, tip "d" 1 ]

/-- `(b:1,c:1,(a:1,d:1)M:1)p;` — unrooted, same taxa as `tieSrc`; the
`{b, c}` outgroup of `tieSrc` is split across its basal children, so
`restore_rooting` takes the degenerate branch. -/
def splitTrg : TNode :=
  .mk (some "p") none
    [ tip "b" 1, tip "c" 1,
      .mk (some "M") (some 1) [tip "a" 1, tip "d" 1] ]

/-- `((a:1,b:1)X:1,(c:1,d:1,e:1)Y:1)R;` — outgroup `{a, b}` (2 < 3
tips). -/
def nonMonoSrc : TNode :=
  .mk (some "R") none
    [ .mk (some "X") (some 1) [tip "a" 1, tip "b" 1],
      .mk (some "Y") (some 1) [tip "c" 1, tip "d" 1, tip "e" 1] ]

/-- `(((a:1,c:1)s:1,b:1)q:1,d:1,e:1)p;` — unrooted, same taxa as
`nonMonoSrc`, but `{a, b}` is not a clade of any representation of this
tree (its smallest containing clade also holds `c`). -/
def nonMonoTrg : TNode :=
  .mk (some "p") none
    [ .mk (some "q") (some 1)
        [ .mk (some "s") (some 1) [tip "a" 1, tip "c" 1], tip "b" 1 ],
      tip "d" 1, tip "e" 1 ]

/-- `((a:1,b:1)n:2,c:1,(d:1,e:1)m:1)p;` — unrooted target with the same
taxa as `nonMonoSrc` in which the outgroup `{a, b}` IS monophyletic
(its LCA is the node `n`). -/
def monoTrg : TNode :=
  .mk (some "p") none
    [ .mk (some "n") (some 2) [tip "a" 1, tip "b" 1],
      tip "c" 1,
      .mk (some "m") (some 1) [tip "d" 1, tip "e" 1] ]

/-- `((a:1,b:1)X:1,c:1)R;` — a source tree whose node names are all
distinct, for the amended idempotence property. -/
def c9src : TNode :=
  .mk (some "R") none
    [ .mk (some "X") (some 1) [tip "a" 1, tip "b" 1], tip "c" 1 ]

/-- `(c:1,(b:1,a:1)X:2)R;` — a target tree with the same (unique) names
as `c9src` but with the children orders scrambled. -/
def c9trg : TNode :=
  .mk (some "R") none
    [ tip "c" 1, .mk (some "X") (some 2) [tip "b" 1, tip "a" 1] ]

/-- The result of `restore_node_order(c9src, c9trg)`: the children
orders of `R` and `X` now follow the source. -/
def c9res : TNode :=
  .mk (some "R") none
    [ .mk (some "X") (some 2) [tip "a" 1, tip "b" 1], tip "c" 1 ]

/-- Source tree for the C9 counterexample: two internal nodes share the
label `X` (label uniqueness is documented but not checked by the
code). -/
def dupSrc : TNode :=
  .mk (some "R") none
    [ .mk (some "P") (some 1) [.mk (some "X") (some 1) [tip "a" 1, tip "b" 1]],
      .mk (some "X") (some 1) [tip "a" 1] ]

/-- Target tree for the C9 counterexample: its two `X`-named nodes sit
at different places; `find` resolves `X` to the first one in traversal
order both times. -/
def dupTrg : TNode :=
  .mk (some "R") none
    [ .mk (some "P") (some 1) [.mk (some "X") (some 1) [tip "a" 1, tip "b" 1]],
      .mk (some "X") (some 1) [tip "c" 1] ]

/-- What `restore_node_order dupSrc dupTrg` returns: the second
processing of label `X` re-resolved to the first `X` node and silently
dropped its tip `b`. -/
def dupOnce : TNode :=
  .mk (some "R") none
    [ .mk (some "P") (some 1) [.mk (some "X") (some 1) [tip "a" 1]],
      .mk (some "X") (some 1) [tip "c" 1] ]

/-- A target node with an extra child subtree `E` (holding tip `z`) not
named among the source children `[b, a]`. -/
def extraNode : TNode :=
  .mk (some "P") (some 1)
    [tip "a" 1, tip "b" 1, .mk (some "E") (some 1) [tip "z" 1]]

/-- Source children `[b, a]` for the reordering of `extraNode`. -/
def extraSrcChildren : List TNode := [tip "b" 2, tip "a" 2]

/-- An unlabeled copy of `basalRootedTree`'s topology, used to exercise
label restoration. -/
def unlabeledTrg : TNode :=
  .mk none none
    [ .mk none (some 1) [tip "a" 1, tip "b" 1],
      .mk none (some 1) [tip "c" 1, tip "d" 1] ]

end Wol

namespace Wol

/-! # Theorems -/

/-- C1: On the tree parsed from
`(((a:1.0,b:0.8)c:2.4,(d:0.8,e:0.6)f:1.2)g:0.4,(h:0.5,i:0.7)j:1.8)k;`,
calling `root_above` on the node named `c` (located at path `[0, 0]`),
with no new root name, returns exactly
`((a:1.0,b:0.8)c:1.2,((d:0.8,e:0.6)f:1.2,(h:0.5,i:0.7)j:2.2)g:1.2);` —
same topology, node names, child order and branch lengths (`c` and `g`
each `1.2`, `j = 0.4 + 1.8 = 2.2`, all others unchanged), and the
original apex `k` does not occur in the result (the expected tree
literal contains no node named `k`). -/
theorem c1_goldenScenario :
    (subtreeAt goldenTree [0, 0]).map TNode.name = some (some "c") ∧
    rootAbove goldenTree [0, 0] none = .ok goldenExpected := by
  constructor
  · with_unfolding_all rfl
  · with_unfolding_all rfl

/-- C7: `walk_copy` invoked at an apex with exactly 2 children fails with
`CannotWalkFromRootOfRootedTree` for every choice of `src` — including a
child of the node, i.e. a genuine neighbor — because the check precedes
the move classification, so it takes precedence over `NotNeighbors`. -/
theorem c7_rootedApexAlwaysFails (t : TNode) (src : Src)
    (h : t.children.length = 2) :
    walkCopy [] t src = .error .cannotWalk := by
  simp [walkCopy, h]

/-- Witness for C7: the rooted tree `((a,b)x,(c,d)y)r` with `src` one of
the apex's children. -/
theorem c7_witness :
    basalRootedTree.children.length = 2 ∧
    walkCopy [] basalRootedTree (.child 0) = .error .cannotWalk :=
  ⟨rfl, c7_rootedApexAlwaysFails basalRootedTree (.child 0) rfl⟩

/-- C3: the three `restore_rooting` precondition checks fire in order —
`SourceNotRooted` whenever `src`'s apex does not have exactly 2 children;
otherwise `TargetNotUnrooted` whenever `trg`'s apex has exactly 2
children; otherwise `TaxaMismatch` whenever the tip-name sets differ —
and on each failure the function returns the error, so no result tree is
produced. -/
theorem c3_failFast (src trg : TNode) :
    (src.children.length ≠ 2 →
      restoreRooting src trg = .error .sourceNotRooted) ∧
    (src.children.length = 2 → trg.children.length = 2 →
      restoreRooting src trg = .error .targetNotUnrooted) ∧
    (src.children.length = 2 → trg.children.length ≠ 2 →
      seteq (tipNames src) (tipNames trg) = false →
      restoreRooting src trg = .error .taxaMismatch) := by
  refine ⟨fun h => ?_, fun h1 h2 => ?_, fun h1 h2 h3 => ?_⟩
  · simp [restoreRooting, h]
  · simp [restoreRooting, h1, h2]
  · simp [restoreRooting, h1, h2, h3]

/-- Witness for C3: a 3-child source apex, a 2-child target apex, and a
taxa mismatch, each triggering its own error. -/
theorem c3_witness :
    restoreRooting (.mk none none [tip "a" 1, tip "b" 1, tip "c" 1])
        basalRootedTree = .error .sourceNotRooted ∧
    restoreRooting basalRootedTree basalRootedTree
      = .error .targetNotUnrooted ∧
    restoreRooting basalRootedTree
        (.mk none none [tip "a" 1, tip "b" 1, tip "z" 1])
      = .error .taxaMismatch :=
  ⟨(c3_failFast _ _).1 (by decide),
   (c3_failFast _ _).2.1 rfl rfl,
   (c3_failFast _ _).2.2 rfl (by decide) (by with_unfolding_all rfl)⟩

/-- C2 counterexample: `root_above` does not succeed on every node that
has a parent: on the strictly rooted tree `((a,b)x,(c,d)y)r` the basal
node `x` (path `[0]`, a node with a parent) makes `root_above` fail with
`NotNeighbors`, because `walk_copy(x, x.parent)` classifies the move as
`n/a` (at a basal node of a rooted tree only the sibling and the children
are acceptable sources). -/
theorem c2_counterexample :
    basalRootedTree.children.length = 2 ∧
    subtreeAt basalRootedTree [0]
      = some (.mk (some "x") (some 1) [tip "a" 1, tip "b" 1]) ∧
    rootAbove basalRootedTree [0] none = .error .notNeighbors := by
  refine ⟨rfl, ?_, ?_⟩
  · with_unfolding_all rfl
  · with_unfolding_all rfl

/-- C4 counterexample: on `((b,c)X,(a,d)Y)R` the two root clades tie at
2 tips; the claim's lexicographic rule picks `Y` (its clade holds the
smallest tip `a`), but the code — Python `min` over a dict in insertion
order — picks the first child `X`, and on the matching unrooted target
the two rules produce observably different trees. -/
theorem c4_counterexample :
    countTips (.mk (some "X") (some 1) [tip "b" 1, tip "c" 1])
      = countTips (.mk (some "Y") (some 1) [tip "a" 1, tip "d" 1]) ∧
    outChildLex tieSrc = .mk (some "Y") (some 1) [tip "a" 1, tip "d" 1] ∧
    outChild tieSrc = .mk (some "X") (some 1) [tip "b" 1, tip "c" 1] ∧
    restoreRooting tieSrc tieTrg
      = .ok (.mk none none
          [ .mk (some "N") (some (1/2)) [tip "b" 1, tip "c" 1],
            .mk (some "p") (some (1/2)) [tip "a" 1, tip "d" 1] ]) ∧
    restoreRootingLex tieSrc tieTrg
      = .ok (.mk none none
          [ .mk (some "N") (some (1/2)) [tip "a" 1, tip "d" 1],
            .mk (some "root") (some (1/2)) [tip "b" 1, tip "c" 1] ]) ∧
    restoreRooting tieSrc tieTrg ≠ restoreRootingLex tieSrc tieTrg := by
  refine ⟨rfl, by with_unfolding_all rfl, by with_unfolding_all rfl,
    by with_unfolding_all rfl, by with_unfolding_all rfl, ?_⟩
  with_unfolding_all decide

/-- C5 counterexample: on `tieSrc` and `(b,c,(a,d)M)p` the outgroup
`{b, c}` is split across the target's basal children, so the degenerate
branch runs.  The code calls scikit-bio's `root_at` on the chosen tip's
parent and succeeds, whereas the claim's procedure — `rootAbove` on that
tip's parent — yields a strictly rooted (2-child apex) representation,
not "a different unrooted representation", in which the recomputed LCA
is a basal child of a rooted apex, so the final rerooting fails with
`NotNeighbors`. -/
theorem c5_counterexample :
    lcaPath splitTrg (tipNames (outChild tieSrc)) = [] ∧
    firstTipNotIn splitTrg (tipNames (outChild tieSrc)) = some [2, 0] ∧
    restoreRooting tieSrc splitTrg
      = .ok (.mk none none
          [ .mk (some "M") (some (1/2)) [tip "b" 1, tip "c" 1],
            .mk (some "root") (some (1/2)) [tip "a" 1, tip "d" 1] ]) ∧
    rootAbove splitTrg [2] none
      = .ok (.mk none none
          [ .mk (some "M") (some (1/2)) [tip "a" 1, tip "d" 1],
            .mk (some "p") (some (1/2)) [tip "b" 1, tip "c" 1] ]) ∧
    (TNode.mk none none
          [ .mk (some "M") (some (1/2)) [tip "a" 1, tip "d" 1],
            .mk (some "p") (some (1/2)) [tip "b" 1, tip "c" 1] ]).children.length
      = 2 ∧
    restoreRootingC5 tieSrc splitTrg = .error .notNeighbors := by
  refine ⟨by with_unfolding_all rfl, by with_unfolding_all rfl,
    by with_unfolding_all rfl, by with_unfolding_all rfl, rfl,
    by with_unfolding_all rfl⟩

/-- C6 counterexample: `nonMonoSrc`/`nonMonoTrg` pass all three
precondition checks, yet the returned tree's two root clades are
`{a, c, b}` and `{d, e}`, not the outgroup/ingroup pair
`{a, b}`/`{c, d, e}` of the source — the outgroup is not monophyletic in
the target, and the code reroots at the smallest clade containing it. -/
theorem c6_counterexample :
    nonMonoSrc.children.length = 2 ∧
    nonMonoTrg.children.length ≠ 2 ∧
    seteq (tipNames nonMonoSrc) (tipNames nonMonoTrg) = true ∧
    tipNames (outChild nonMonoSrc) = [some "a", some "b"] ∧
    restoreRooting nonMonoSrc nonMonoTrg
      = .ok (.mk none none
          [ .mk (some "q") (some (1/2))
              [ .mk (some "s") (some 1) [tip "a" 1, tip "c" 1], tip "b" 1 ],
            .mk (some "p") (some (1/2)) [tip "d" 1, tip "e" 1] ]) ∧
    rootBipartitionB
        (.mk none none
          [ .mk (some "q") (some (1/2))
              [ .mk (some "s") (some 1) [tip "a" 1, tip "c" 1], tip "b" 1 ],
            .mk (some "p") (some (1/2)) [tip "d" 1, tip "e" 1] ])
        [some "a", some "b"] [some "c", some "d", some "e"]
      = false := by
  refine ⟨rfl, by decide, by with_unfolding_all rfl, by with_unfolding_all rfl,
    by with_unfolding_all rfl, by with_unfolding_all rfl⟩

/-! ### Helper lemmas about child lookup and reordering -/

theorem lookupChild_eq_some {cs : List TNode} {nm : Option String} {c : TNode}
    (h : lookupChild cs nm = some c) : c ∈ cs ∧ c.name = nm := by
  unfold lookupChild at h
  have h1 := List.find?_some h
  have h2 := List.mem_of_find?_eq_some h
  exact ⟨List.mem_reverse.mp h2, by simpa using h1⟩

theorem lookupChild_isSome_of {cs : List TNode} {nm : Option String}
    (h : ∃ c ∈ cs, c.name = nm) : ∃ c, lookupChild cs nm = some c := by
  unfold lookupChild
  rcases h with ⟨c, hc, hn⟩
  have hs : (cs.reverse.find? (fun c => c.name == nm)).isSome := by
    rw [List.find?_isSome]
    exact ⟨c, List.mem_reverse.mpr hc, by simp [hn]⟩
  exact Option.isSome_iff_exists.mp hs

theorem reorder_mapM_ok (cs : List TNode) :
    ∀ scs : List TNode, (∀ sc ∈ scs, ∃ c ∈ cs, c.name = sc.name) →
      ∃ l, (scs.mapM (fun sc =>
          match lookupChild cs sc.name with
          | some c => Except.ok c
          | none => Except.error Err.childMismatch) : Except Err (List TNode)) = .ok l ∧
        ∀ c ∈ l, c ∈ cs ∧ ∃ sc ∈ scs, c.name = sc.name := by
  intro scs
  induction scs with
  | nil => exact fun _ => ⟨[], rfl, by simp⟩
  | cons sc scs ih =>
    intro h
    obtain ⟨c, hc⟩ := lookupChild_isSome_of (h sc (by simp))
    obtain ⟨l, hl, hprop⟩ := ih (fun x hx => h x (by simp [hx]))
    refine ⟨c :: l, ?_, ?_⟩
    · rw [List.mapM_cons, hc, hl]
      rfl
    · intro x hx
      rcases List.mem_cons.mp hx with rfl | hx'
      · obtain ⟨hmem, hname⟩ := lookupChild_eq_some hc
        exact ⟨hmem, sc, by simp, hname⟩
      · obtain ⟨hm, s, hs, hn⟩ := hprop x hx'
        exact ⟨hm, s, by simp [hs], hn⟩

theorem reorder_mapM_err (cs : List TNode) :
    ∀ scs : List TNode, (∃ sc ∈ scs, lookupChild cs sc.name = none) →
      (scs.mapM (fun sc =>
          match lookupChild cs sc.name with
          | some c => Except.ok c
          | none => Except.error Err.childMismatch) : Except Err (List TNode))
        = .error .childMismatch := by
  intro scs
  induction scs with
  | nil => rintro ⟨sc, h, _⟩; cases h
  | cons a scs ih =>
    rintro ⟨sc, hmem, hnone⟩
    rw [List.mapM_cons]
    rcases List.mem_cons.mp hmem with rfl | hmem'
    · rw [hnone]; rfl
    · cases hca : lookupChild cs a.name with
      | none => rfl
      | some c => rw [ih ⟨sc, hmem', hnone⟩]; rfl

/-- C10: when `restore_node_order` rebuilds the children of a target
node against a source child list (`reorderChildren`, the per-node step),
it succeeds whenever every source child name has a like-named target
child, even when the target node's children form a strict superset: the
extra children are silently removed from the rebuilt node — along with
their entire subtrees, since a dropped child is dropped together with
everything below it — and `ChildMismatch` occurs only in the converse
direction, when some source child name has no match. -/
theorem c10_extraChildren (n : TNode) (scs : List TNode) :
    ((∀ sc ∈ scs, ∃ c ∈ n.children, c.name = sc.name) →
      ∃ n', reorderChildren n scs = .ok n' ∧
        n'.name = n.name ∧ n'.length = n.length ∧
        (∀ c ∈ n'.children, c ∈ n.children) ∧
        (∀ c ∈ n.children, c.name ∉ scs.map TNode.name → c ∉ n'.children)) ∧
    ((∃ sc ∈ scs, ∀ c ∈ n.children, c.name ≠ sc.name) →
      reorderChildren n scs = .error .childMismatch) := by
  constructor
  · intro h
    obtain ⟨l, hl, hp⟩ := reorder_mapM_ok n.children scs h
    refine ⟨.mk n.name n.length l, ?_, rfl, rfl, ?_, ?_⟩
    · unfold reorderChildren
      rw [hl]
      rfl
    · exact fun c hc => (hp c hc).1
    · intro c _ hname hcmem
      obtain ⟨_, sc, hsc, hn⟩ := hp c hcmem
      exact hname (List.mem_map.mpr ⟨sc, hsc, hn.symm⟩)
  · rintro ⟨sc, hmem, hforall⟩
    have hnone : lookupChild n.children sc.name = none := by
      cases h : lookupChild n.children sc.name with
      | none => rfl
      | some c =>
        obtain ⟨hm, hn⟩ := lookupChild_eq_some h
        exact absurd hn (hforall c hm)
    unfold reorderChildren
    rw [reorder_mapM_err n.children scs ⟨sc, hmem, hnone⟩]
    rfl

/-- Witness for C10: `extraNode` has children `a`, `b` and an extra
subtree `E` (with tip `z`); reordering against source children `[b, a]`
succeeds and drops `E`, while reordering a childless node against `[b]`
fails with `ChildMismatch`. -/
theorem c10_witness :
    (∃ n', reorderChildren extraNode extraSrcChildren = .ok n' ∧
      n'.name = extraNode.name ∧ n'.length = extraNode.length ∧
      (∀ c ∈ n'.children, c ∈ extraNode.children) ∧
      (∀ c ∈ extraNode.children,
        c.name ∉ extraSrcChildren.map TNode.name → c ∉ n'.children)) ∧
    reorderChildren (.mk (some "Q") none []) [tip "b" 1]
      = .error .childMismatch :=
  ⟨(c10_extraChildren extraNode extraSrcChildren).1 (by
      intro sc hsc
      fin_cases hsc
      · exact ⟨tip "b" 1, by simp [extraNode, TNode.children], rfl⟩
      · exact ⟨tip "a" 1, by simp [extraNode, TNode.children], rfl⟩),
   (c10_extraChildren (.mk (some "Q") none []) [tip "b" 1]).2
     ⟨tip "b" 1, by simp, by simp [TNode.children]⟩⟩

/-- C4 amended: `restore_rooting` selects as outgroup the root child of
`src` with fewer descendant tips; when the two root children have equal
tip counts it deterministically selects the **first** root child —
Python's `min` over a dict iterates keys in insertion order, which is
the child order — not the clade with the lexicographically smallest tip
name. -/
theorem c4_amended (src c1 c2 : TNode) (h : src.children = [c1, c2]) :
    outChild src ∈ src.children ∧
    (∀ c ∈ src.children, countTips (outChild src) ≤ countTips c) ∧
    (countTips c2 < countTips c1 → outChild src = c2) ∧
    (countTips c1 ≤ countTips c2 → outChild src = c1) := by
  have he : outChild src = if countTips c2 < countTips c1 then c2 else c1 := by
    simp [outChild, h]
  refine ⟨?_, ?_, ?_, ?_⟩
  · rw [h, he]
    split <;> simp
  · rw [h, he]
    intro c hcm
    rcases List.mem_pair.mp hcm with rfl | rfl <;> split <;> omega
  · intro hlt
    rw [he, if_pos hlt]
  · intro hle
    rw [he, if_neg (by omega)]

/-- Witness for C4: on `tieSrc` the tip counts tie and the code selects
the first root child `X`. -/
theorem c4_amended_witness :
    outChild tieSrc ∈ tieSrc.children ∧
    outChild tieSrc = .mk (some "X") (some 1) [tip "b" 1, tip "c" 1] := by
  obtain ⟨h1, _, _, h4⟩ :=
    c4_amended tieSrc (.mk (some "X") (some 1) [tip "b" 1, tip "c" 1])
      (.mk (some "Y") (some 1) [tip "a" 1, tip "d" 1]) rfl
  exact ⟨h1, h4 (by decide)⟩

/-- C5 amended: whenever the LCA of the outgroup tip names in the copied
target equals that copy's own apex, `restore_rooting` recovers by taking
the first tip (in tip order) not in the outgroup and calling scikit-bio's
`root_at` — not `rootAbove` — on that tip's parent, obtaining a
representation of the same tree re-anchored at that parent, and then
recomputes the LCA in that representation before the final
`root_above`. -/
theorem c5_amended (src trg : TNode) (tp : List ℕ)
    (h1 : src.children.length = 2)
    (h2 : trg.children.length ≠ 2)
    (h3 : seteq (tipNames src) (tipNames trg) = true)
    (hdeg : lcaPath trg (tipNames (outChild src)) = [])
    (htp : firstTipNotIn trg (tipNames (outChild src)) = some tp) :
    restoreRooting src trg
      = rootAbove (rootAt trg tp.dropLast)
          (lcaPath (rootAt trg tp.dropLast) (tipNames (outChild src))) none := by
  simp [restoreRooting, h1, h2, h3, hdeg, htp]

/-- Witness for C5's amended claim at `tieSrc`/`splitTrg`, where the
chosen tip is `a` at path `[2, 0]` and its parent is `M` at `[2]`. -/
theorem c5_amended_witness :
    restoreRooting tieSrc splitTrg
      = rootAbove (rootAt splitTrg [2])
          (lcaPath (rootAt splitTrg [2]) (tipNames (outChild tieSrc))) none :=
  c5_amended tieSrc splitTrg [2, 0] rfl (by decide)
    (by with_unfolding_all rfl) (by with_unfolding_all rfl)
    (by with_unfolding_all rfl)

/-! ### Helper lemmas about the directional copy -/

mutual

theorem walkDown_id : ∀ t : TNode, walkDown t = t
  | .mk n l cs => by rw [walkDown, walkDownL_id cs]

theorem walkDownL_id : ∀ cs : List TNode, walkDown.walkDownL cs = cs
  | [] => rfl
  | c :: cs => by rw [walkDown.walkDownL, walkDown_id c, walkDownL_id cs]

end

theorem TNode.eta (t : TNode) : TNode.mk t.name t.length t.children = t := by
  cases t
  rfl

theorem allLens_isSome {t : TNode} (h : allLens t = true) :
    t.length.isSome = true := by
  cases t with
  | mk n l cs =>
    rw [allLens, Bool.and_eq_true] at h
    exact h.1

theorem allLens_children {t : TNode} (h : allLens t = true) :
    allLensL t.children = true := by
  cases t with
  | mk n l cs =>
    rw [allLens, Bool.and_eq_true] at h
    exact h.2

theorem allLensL_mem : ∀ {cs : List TNode} {c : TNode},
    allLensL cs = true → c ∈ cs → allLens c = true := by
  intro cs
  induction cs with
  | nil => intro c _ hc; cases hc
  | cons a cs ih =>
    intro c h hc
    rw [allLensL, Bool.and_eq_true] at h
    rcases List.mem_cons.mp hc with rfl | hc'
    · exact h.1
    · exact ih h.2 hc'

theorem allLensL_sublist {cs ds : List TNode} (h : allLensL cs = true)
    (hs : ∀ c ∈ ds, c ∈ cs) : allLensL ds = true := by
  induction ds with
  | nil => rfl
  | cons a ds ih =>
    rw [allLensL, Bool.and_eq_true]
    exact ⟨allLensL_mem h (hs a (by simp)),
      ih (fun c hc => hs c (by simp [hc]))⟩

theorem plugAll_append : ∀ (xs ys : List Frame) (t : TNode),
    plugAll (xs ++ ys) t = plugAll ys (plugAll xs t)
  | [], ys, t => rfl
  | f :: xs, ys, t => by
    rw [List.cons_append, plugAll, plugAll, plugAll_append xs ys]

theorem innerOK_append {xs : List Frame} {y : Frame}
    (h1 : innerOK xs) (h2 : y.length.isSome = true) (h3 : frameSidesOK y) :
    innerOK (xs ++ [y]) := by
  induction xs with
  | nil => exact ⟨⟨h2, h3⟩, trivial⟩
  | cons f xs ih =>
    obtain ⟨hf, hxs⟩ := h1
    exact ⟨hf, ih hxs⟩

/-- The big locate lemma: locating a node of a well-lengthed tree
produces a context rebuildable to the tree, whose inner frames all carry
defined lengths and well-lengthed side trees, with the outermost frame's
data taken from the apex. -/
theorem locate_good : ∀ (p : List ℕ) (T : TNode) (ctx : List Frame) (t : TNode),
    locate T p = some (ctx, t) → allLensL T.children = true →
    plugAll ctx t = T ∧
    (p = [] → ctx = [] ∧ t = T) ∧
    (p ≠ [] → allLens t = true ∧
      ∃ inner fr, ctx = inner ++ [fr] ∧ innerOK inner ∧ frameSidesOK fr ∧
        fr.length = T.length ∧ fr.name = T.name) := by
  intro p
  induction p with
  | nil =>
    intro T ctx t h _
    rw [locate] at h
    have h' := Option.some.inj h
    have h1 : ([] : List Frame) = ctx := congrArg Prod.fst h'
    have h2 : T = t := congrArg Prod.snd h'
    subst h1
    subst h2
    exact ⟨rfl, fun _ => ⟨rfl, rfl⟩, fun hne => absurd rfl hne⟩
  | cons i q ih =>
    intro T ctx t h hL
    rw [locate] at h
    split at h
    case h_2 => cases h
    case h_1 c hc =>
      cases hl : locate c q with
      | none => rw [hl] at h; cases h
      | some q0 =>
        rw [hl] at h
        obtain ⟨ctx0, t0⟩ := q0
        simp only [Option.map_some'] at h
        have h' := Option.some.inj h
        have h1 : ctx0 ++
            [⟨T.name, T.length, T.children.take i, T.children.drop (i + 1)⟩]
            = ctx := congrArg Prod.fst h'
        have h2 : t0 = t := congrArg Prod.snd h'
        subst h1
        subst h2
        have hcm : c ∈ T.children := List.getElem?_mem hc
        have hac : allLens c = true := allLensL_mem hL hcm
        obtain ⟨hplug, hnil, hcons⟩ := ih c ctx0 t0 hl (allLens_children hac)
        have hfr : frameSidesOK
            ⟨T.name, T.length, T.children.take i, T.children.drop (i + 1)⟩ := by
          intro s hs
          refine allLensL_mem hL ?_
          rcases List.mem_append.mp hs with hs' | hs'
          · exact List.mem_of_mem_take hs'
          · exact List.mem_of_mem_drop hs'
        have hchildren : T.children.take i ++ c :: T.children.drop (i + 1)
            = T.children := by
          have hi : i < T.children.length := by
            by_contra hge
            rw [List.getElem?_eq_none (by omega)] at hc
            cases hc
          conv_rhs => rw [← List.take_append_drop i T.children]
          congr 1
          rw [List.drop_eq_getElem_cons hi]
          rw [List.getElem?_eq_getElem hi] at hc
          rw [Option.some.inj hc]
        have hplugT : plugAll
            (ctx0 ++
              [⟨T.name, T.length, T.children.take i, T.children.drop (i + 1)⟩])
            t0 = T := by
          rw [plugAll_append, hplug, plugAll, plugAll, plugF]
          show TNode.mk T.name T.length
            (T.children.take i ++ c :: T.children.drop (i + 1)) = T
          rw [hchildren, TNode.eta]
        refine ⟨hplugT, fun hq => absurd hq (by simp), fun _ => ?_⟩
        constructor
        · cases hq : q with
          | nil =>
            obtain ⟨hc0, ht0⟩ := hnil hq
            rw [ht0]
            exact hac
          | cons j q' =>
            exact (hcons (by simp [hq])).1
        · refine ⟨ctx0,
            ⟨T.name, T.length, T.children.take i, T.children.drop (i + 1)⟩,
            rfl, ?_, hfr, rfl, rfl⟩
          cases hq : q with
          | nil =>
            obtain ⟨hc0, _⟩ := hnil hq
            rw [hc0]
            trivial
          | cons j q' =>
            obtain ⟨_, inner0, fr0, hctx0, hinner0, hsides0, hlen0, _⟩ :=
              hcons (by simp [hq])
            rw [hctx0]
            refine innerOK_append hinner0 ?_ hsides0
            rw [hlen0]
            exact allLens_isSome hac

theorem locate_plug : ∀ (p : List ℕ) (T : TNode) (ctx : List Frame) (t : TNode),
    locate T p = some (ctx, t) → plugAll ctx t = T ∧ (ctx = [] ↔ p = []) := by
  intro p
  induction p with
  | nil =>
    intro T ctx t h
    rw [locate] at h
    have h' := Option.some.inj h
    have h1 : ([] : List Frame) = ctx := congrArg Prod.fst h'
    have h2 : T = t := congrArg Prod.snd h'
    subst h1
    subst h2
    exact ⟨rfl, by simp⟩
  | cons i q ih =>
    intro T ctx t h
    rw [locate] at h
    split at h
    case h_2 => cases h
    case h_1 c hc =>
      cases hl : locate c q with
      | none => rw [hl] at h; cases h
      | some q0 =>
        rw [hl] at h
        obtain ⟨ctx0, t0⟩ := q0
        simp only [Option.map_some'] at h
        have h' := Option.some.inj h
        have h1 : ctx0 ++
            [⟨T.name, T.length, T.children.take i, T.children.drop (i + 1)⟩]
            = ctx := congrArg Prod.fst h'
        have h2 : t0 = t := congrArg Prod.snd h'
        subst h1
        subst h2
        obtain ⟨hplug, _⟩ := ih c ctx0 t0 hl
        have hi : i < T.children.length := by
          by_contra hge
          rw [List.getElem?_eq_none (by omega)] at hc
          cases hc
        have hchildren : T.children.take i ++ c :: T.children.drop (i + 1)
            = T.children := by
          conv_rhs => rw [← List.take_append_drop i T.children]
          congr 1
          rw [List.drop_eq_getElem_cons hi]
          rw [List.getElem?_eq_getElem hi] at hc
          rw [Option.some.inj hc]
        constructor
        · rw [plugAll_append, hplug, plugAll, plugAll, plugF]
          show TNode.mk T.name T.length
            (T.children.take i ++ c :: T.children.drop (i + 1)) = T
          rw [hchildren, TNode.eta]
        · simp

theorem walkBottom_ok {t : TNode} {sl : Option ℚ} (h1 : sl.isSome = true)
    (h2 : t.length.isSome = true) : ∃ r, walkBottom t sl = .ok r := by
  obtain ⟨a, ha⟩ := Option.isSome_iff_exists.mp h1
  obtain ⟨b, hb⟩ := Option.isSome_iff_exists.mp h2
  subst ha
  cases t with
  | mk n lo cs =>
    have hlo : lo = some b := hb
    subst hlo
    exact ⟨_, rfl⟩

theorem plugF_children_length {f : Frame} {t : TNode} :
    (plugF f t).children.length = (f.before ++ f.after).length + 1 := by
  show (f.before ++ t :: f.after).length = _
  simp only [List.length_append, List.length_cons]
  omega

/-- Characterization of `root_above` at a located non-apex node. -/
theorem rootAbove_eq {T : TNode} {i : ℕ} {q : List ℕ} {f : Frame}
    {ctx' : List Frame} {t : TNode} {nm : Option String}
    (hloc : locate T (i :: q) = some (f :: ctx', t)) :
    rootAbove T (i :: q) nm
      = Except.bind (walkCopy (f :: ctx') t .par) (fun left =>
          Except.bind (walkCopy ctx' (plugF f t) (.child f.before.length))
            (fun right =>
              match t.length with
              | some l => .ok (.mk nm none [setLen left (l / 2), setLen right (l / 2)])
              | none => .error .typeErr)) := by
  simp only [rootAbove, hloc]
  rfl

theorem walkCopy_root_up {t : TNode} {i : ℕ} {c : TNode}
    (h2 : t.children.length ≠ 2) (hc : t.children[i]? = some c) :
    walkCopy [] t (.child i)
      = .ok (.mk t.name c.length (walkDown.walkDownL (t.children.eraseIdx i))) := by
  rw [walkCopy, if_neg h2]
  simp only [hc]

theorem walkCopy_basalRooted_par {f : Frame} {t : TNode}
    (h : (f.before ++ f.after).length = 1) :
    walkCopy [f] t .par = .error .notNeighbors := by
  rw [walkCopy, if_pos ⟨rfl, h⟩]

theorem walkCopy_down {f : Frame} {ctx : List Frame} {t : TNode}
    (h : ¬(ctx = [] ∧ (f.before ++ f.after).length = 1)) :
    walkCopy (f :: ctx) t .par
      = .ok (.mk t.name t.length (walkDown.walkDownL t.children)) := by
  rw [walkCopy, if_neg h]

theorem walkCopy_top {f : Frame} {t : TNode} {i : ℕ} {c sc : TNode}
    (h : (f.before ++ f.after).length = 1)
    (hc : t.children[i]? = some c)
    (hsc : walkBottom ((f.before ++ f.after).headI) t.length = .ok sc) :
    walkCopy [f] t (.child i)
      = .ok (.mk t.name c.length
          (walkDown.walkDownL (t.children.eraseIdx i) ++ [sc])) := by
  rw [walkCopy, if_pos ⟨rfl, h⟩]
  simp only [hc, hsc]
  rfl

theorem walkCopy_up_step {f : Frame} {ctx : List Frame} {t : TNode} {i : ℕ}
    {c up : TNode}
    (h : ¬(ctx = [] ∧ (f.before ++ f.after).length = 1))
    (hc : t.children[i]? = some c)
    (hup : walkCopy ctx (plugF f t) (.child f.before.length) = .ok up) :
    walkCopy (f :: ctx) t (.child i)
      = .ok (.mk t.name c.length
          (walkDown.walkDownL (t.children.eraseIdx i) ++ [up])) := by
  rw [walkCopy, if_neg h]
  simp only [hc, hup]
  rfl

theorem plugF_child {f : Frame} {t : TNode} :
    (plugF f t).children[f.before.length]? = some t := by
  show (f.before ++ t :: f.after)[f.before.length]? = some t
  rw [List.getElem?_append_right (le_refl _)]
  simp

theorem walkCopy_up_succeeds :
    ∀ (ctx : List Frame) (t : TNode) (i : ℕ) (c : TNode),
      t.children[i]? = some c → upOK ctx t →
      ∃ r, walkCopy ctx t (.child i) = .ok r := by
  intro ctx
  induction ctx with
  | nil =>
    intro t i c hc hok
    exact ⟨_, walkCopy_root_up hok hc⟩
  | cons f ctx ih =>
    intro t i c hc hok
    by_cases hb : ctx = [] ∧ (f.before ++ f.after).length = 1
    · obtain ⟨hctx, hlen⟩ := hb
      subst hctx
      obtain ⟨sib, hsib⟩ : ∃ sib, f.before ++ f.after = [sib] :=
        List.length_eq_one.mp hlen
      obtain ⟨hs1, hs2⟩ := hok sib hsib
      have hhead : (f.before ++ f.after).headI = sib := by rw [hsib]; rfl
      obtain ⟨sc, hsc⟩ := walkBottom_ok hs2 (t := (f.before ++ f.after).headI)
        (by rw [hhead]; exact hs1)
      exact ⟨_, walkCopy_top hlen hc hsc⟩
    · have hok' : upOK ctx (plugF f t) := by
        cases hcx : ctx with
        | nil =>
          subst hcx
          show (plugF f t).children.length ≠ 2
          show (f.before ++ t :: f.after).length ≠ 2
          have hlen : (f.before ++ f.after).length ≠ 1 := by
            intro hl1
            exact hb ⟨rfl, hl1⟩
          simp only [List.length_append, List.length_cons] at *
          omega
        | cons g ctx' =>
          subst hcx
          exact hok
      obtain ⟨u, hu⟩ := ih (plugF f t) f.before.length t plugF_child hok'
      exact ⟨_, walkCopy_up_step hb hc hu⟩

theorem upOK_of_innerOK : ∀ (ctx : List Frame) (fr : Frame) (x : TNode),
    innerOK ctx → frameSidesOK fr → x.length.isSome = true →
    upOK (ctx ++ [fr]) x := by
  intro ctx
  induction ctx with
  | nil =>
    intro fr x _ hfr hx
    intro sib hsib
    exact ⟨allLens_isSome (hfr sib (by rw [hsib]; simp)), hx⟩
  | cons g ctx ih =>
    intro fr x hinner hfr hx
    obtain ⟨⟨hg1, _⟩, hrest⟩ := hinner
    obtain ⟨y, ys, hys⟩ : ∃ y ys, ctx ++ [fr] = y :: ys := by
      cases hcx : ctx ++ [fr] with
      | nil => exact absurd hcx (by simp)
      | cons y ys => exact ⟨y, ys, rfl⟩
    show upOK (g :: ctx ++ [fr]) x
    rw [List.cons_append, hys]
    show upOK (y :: ys) (plugF g x)
    rw [← hys]
    exact ih fr (plugF g x) hrest hfr hg1

theorem upOK_of_locate {T : TNode} {p : List ℕ} {f : Frame}
    {ctx' : List Frame} {t : TNode}
    (h : locate T p = some (f :: ctx', t))
    (hL : allLensL T.children = true)
    (hroot : ctx' = [] → T.children.length ≠ 2) :
    upOK ctx' (plugF f t) := by
  obtain ⟨hplug, hiff⟩ := locate_plug p T _ _ h
  have hp : p ≠ [] := by
    intro hpn
    have := hiff.mpr hpn
    cases this
  obtain ⟨_, _, hcons⟩ := locate_good p T _ _ h hL
  obtain ⟨_, inner, fr, hctx, hinner, hsides, _, _⟩ := hcons hp
  cases inner with
  | nil =>
    rw [List.nil_append] at hctx
    injection hctx with hf hctx'
    subst hctx'
    subst hf
    intro h2
    have hT : plugF f t = T := hplug
    rw [hT] at h2
    exact hroot rfl h2
  | cons g inner' =>
    rw [List.cons_append] at hctx
    injection hctx with hf hctx'
    subst hf
    rw [hctx']
    obtain ⟨⟨hg1, _⟩, hrest⟩ := hinner
    exact upOK_of_innerOK inner' fr (plugF f t) hrest hsides hg1

/-- C2 amended: `root_above` fails at the apex (for a strictly rooted
apex the left walk raises `CannotWalkFromRootOfRootedTree`, otherwise
Python dies on `None.parent`), and it also fails — with `NotNeighbors` —
on every basal child of a strictly rooted apex; for every other node
with a parent (given a defined length at the node and below the apex,
as the data model requires) it succeeds and returns a tree whose apex
has exactly the two children `left` and `right`, each carrying branch
length `node.length / 2`, so the two lengths sum to the original
`node.length`. -/
theorem c2_amended (T : TNode) (p : List ℕ) (nm : Option String) :
    (p = [] → ∃ e, rootAbove T p nm = .error e) ∧
    (∀ ctx t, locate T p = some (ctx, t) → ctx.length = 1 →
      T.children.length = 2 →
      rootAbove T p nm = .error .notNeighbors) ∧
    (∀ ctx t l, locate T p = some (ctx, t) → p ≠ [] → t.length = some l →
      allLensL T.children = true →
      ¬(ctx.length = 1 ∧ T.children.length = 2) →
      ∃ lt rt, rootAbove T p nm = .ok (.mk nm none [lt, rt]) ∧
        lt.length = some (l / 2) ∧ rt.length = some (l / 2) ∧
        l / 2 + l / 2 = l) := by
  refine ⟨?_, ?_, ?_⟩
  · rintro rfl
    by_cases hT : T.children.length = 2
    · exact ⟨.cannotWalk, by rw [rootAbove, if_pos hT]⟩
    · exact ⟨.attrErr, by rw [rootAbove, if_neg hT]⟩
  · intro ctx t hloc hctx1 hT2
    obtain ⟨f, hf⟩ : ∃ f, ctx = [f] := List.length_eq_one.mp hctx1
    subst hf
    obtain ⟨hplug, hiff⟩ := locate_plug p T _ _ hloc
    have hp : p ≠ [] := by
      intro hpn
      have := hiff.mpr hpn
      cases this
    obtain ⟨i, q, hpq⟩ : ∃ i q, p = i :: q := by
      cases p with
      | nil => exact absurd rfl hp
      | cons i q => exact ⟨i, q, rfl⟩
    subst hpq
    have hsides : (f.before ++ f.after).length = 1 := by
      have hT : plugF f t = T := hplug
      have hlen := plugF_children_length (f := f) (t := t)
      rw [hT, hT2] at hlen
      omega
    rw [rootAbove_eq hloc, walkCopy_basalRooted_par hsides]
    rfl
  · intro ctx t l hloc hp hl hL hnb
    obtain ⟨i, q, hpq⟩ : ∃ i q, p = i :: q := by
      cases p with
      | nil => exact absurd rfl hp
      | cons i q => exact ⟨i, q, rfl⟩
    subst hpq
    obtain ⟨f, ctx', hf⟩ : ∃ f ctx', ctx = f :: ctx' := by
      obtain ⟨_, hiff⟩ := locate_plug _ T _ _ hloc
      cases hcx : ctx with
      | nil =>
        rw [hcx] at hiff
        cases hiff.mp rfl
      | cons f ctx' => exact ⟨f, ctx', rfl⟩
    subst hf
    have hplug := (locate_plug _ T _ _ hloc).1
    have hnb' : ¬(ctx' = [] ∧ (f.before ++ f.after).length = 1) := by
      rintro ⟨hc1, hc2⟩
      refine hnb ⟨by rw [hc1]; rfl, ?_⟩
      subst hc1
      have hT : plugF f t = T := hplug
      have hlen := plugF_children_length (f := f) (t := t)
      rw [hT] at hlen
      omega
    have hroot' : ctx' = [] → T.children.length ≠ 2 := by
      intro hc1 hT2
      refine hnb' ⟨hc1, ?_⟩
      subst hc1
      have hT : plugF f t = T := hplug
      have hlen := plugF_children_length (f := f) (t := t)
      rw [hT, hT2] at hlen
      omega
    obtain ⟨r, hr⟩ := walkCopy_up_succeeds ctx' (plugF f t) f.before.length t
      plugF_child (upOK_of_locate hloc hL hroot')
    refine ⟨setLen (.mk t.name t.length (walkDown.walkDownL t.children)) (l / 2),
      setLen r (l / 2), ?_, rfl, rfl, by ring⟩
    rw [rootAbove_eq hloc]
    simp only [walkCopy_down hnb', hr, hl, Except.bind]

/-- Witness for C2's amended claim: the golden tree at node `c` (path
`[0, 0]`, length `2.4`): `root_above` succeeds with two apex children of
length `1.2` each. -/
theorem c2_amended_witness :
    ∃ lt rt, rootAbove goldenTree [0, 0] none = .ok (.mk none none [lt, rt]) ∧
      lt.length = some ((24/10 : ℚ) / 2) ∧ rt.length = some ((24/10 : ℚ) / 2) ∧
      (24/10 : ℚ) / 2 + (24/10 : ℚ) / 2 = (24/10 : ℚ) :=
  (c2_amended goldenTree [0, 0] none).2.2
    [⟨some "g", some (4/10), [],
        [.mk (some "f") (some (12/10)) [tip "d" (8/10), tip "e" (6/10)]]⟩,
     ⟨some "k", none, [],
        [.mk (some "j") (some (18/10)) [tip "h" (5/10), tip "i" (7/10)]]⟩]
    (.mk (some "c") (some (24/10)) [tip "a" 1, tip "b" (8/10)])
    (24/10)
    (by with_unfolding_all rfl) (by decide) (by with_unfolding_all rfl)
    (by with_unfolding_all rfl) (by decide)

/-! ### Helper lemmas about clade taxa -/

theorem cladeTaxaL_append : ∀ xs ys : List TNode,
    cladeTaxaL (xs ++ ys) = cladeTaxaL xs ++ cladeTaxaL ys
  | [], ys => rfl
  | x :: xs, ys => by
    rw [List.cons_append, cladeTaxaL, cladeTaxaL, cladeTaxaL_append xs ys,
      List.append_assoc]

theorem cladeTaxa_ne_nil : ∀ t : TNode, cladeTaxa t ≠ []
  | .mk n l [] => by rw [cladeTaxa]; simp
  | .mk n l (c :: cs) => by
    rw [cladeTaxa, cladeTaxaL]
    intro h
    rcases List.append_eq_nil.mp h with ⟨h1, _⟩
    exact cladeTaxa_ne_nil c h1

theorem cladeTaxa_internal {t : TNode} (h : t.children ≠ []) :
    cladeTaxa t = cladeTaxaL t.children := by
  cases t with
  | mk n l cs =>
    cases cs with
    | nil => exact absurd rfl h
    | cons c cs' => rfl

theorem cladeTaxa_mk_same (t : TNode) (x : Option ℚ) :
    cladeTaxa (.mk t.name x t.children) = cladeTaxa t := by
  cases t with
  | mk n l cs => cases cs <;> rfl

theorem cladeTaxa_setLen (t : TNode) (x : ℚ) :
    cladeTaxa (setLen t x) = cladeTaxa t :=
  cladeTaxa_mk_same t (some x)

theorem sizeL_mem : ∀ {cs : List TNode} {c : TNode}, c ∈ cs →
    TNode.size c ≤ TNode.size.sizeL cs := by
  intro cs
  induction cs with
  | nil => intro c hc; cases hc
  | cons a cs ih =>
    intro c hc
    rw [TNode.size.sizeL]
    rcases List.mem_cons.mp hc with rfl | hc'
    · omega
    · have := ih hc'
      omega

theorem size_lt_of_mem {cs : List TNode} {c : TNode} (hc : c ∈ cs)
    (n : Option String) (l : Option ℚ) :
    TNode.size c < TNode.size (.mk n l cs) := by
  rw [TNode.size]
  have := sizeL_mem hc
  omega

theorem lcaL_spec : ∀ (cs : List TNode) (names : List (Option String)) (j : ℕ),
    lcaL cs names j = [] ∨
    ∃ k c, lcaL cs names j = (j + k) :: lcaPath c names ∧
      cs[k]? = some c ∧ containsAll c names = true := by
  intro cs
  induction cs with
  | nil => intro names j; left; rfl
  | cons c cs ih =>
    intro names j
    by_cases hcond : containsAll c names = true
    · right
      exact ⟨0, c, by rw [lcaL, if_pos hcond, Nat.add_zero], by simp, hcond⟩
    · rcases ih names (j + 1) with hnil | ⟨k, c', heq, hck, hcont⟩
      · left
        rw [lcaL, if_neg hcond, hnil]
      · right
        refine ⟨k + 1, c', ?_, by simpa using hck, hcont⟩
        rw [lcaL, if_neg hcond, heq]
        congr 1
        omega

theorem locate_lcaPath : ∀ (t : TNode) (names : List (Option String)),
    ∃ ctx tl, locate t (lcaPath t names) = some (ctx, tl)
  | .mk n l cs, names => by
    rw [lcaPath]
    rcases lcaL_spec cs names 0 with hnil | ⟨k, c, heq, hck, _⟩
    · rw [hnil]
      exact ⟨[], .mk n l cs, rfl⟩
    · rw [heq, Nat.zero_add]
      have hmem : c ∈ cs := List.getElem?_mem hck
      obtain ⟨ctx0, tl0, h0⟩ := locate_lcaPath c names
      refine ⟨ctx0 ++ [⟨n, l, cs.take k, cs.drop (k + 1)⟩], tl0, ?_⟩
      rw [locate]
      rw [show (TNode.mk n l cs).children[k]? = some c from hck]
      simp only [h0, Option.map_some']
      rfl
  termination_by t _ => TNode.size t
  decreasing_by exact size_lt_of_mem hmem n l

theorem seteq_iff {A B : List (Option String)} :
    seteq A B = true ↔ (∀ x, x ∈ A ↔ x ∈ B) := by
  unfold seteq
  rw [Bool.and_eq_true, List.all_eq_true, List.all_eq_true]
  constructor
  · rintro ⟨h1, h2⟩ x
    exact ⟨fun hx => by simpa using h1 x hx, fun hx => by simpa using h2 x hx⟩
  · intro h
    exact ⟨fun x hx => by simp [(h x).mp hx],
      fun x hx => by simp [(h x).mpr hx]⟩

theorem taxa_eraseIdx {cs : List TNode} {i : ℕ} {c : TNode}
    (hc : cs[i]? = some c) :
    (cladeTaxaL (cs.eraseIdx i) : Multiset (Option String)) + (cladeTaxa c)
      = (cladeTaxaL cs : Multiset (Option String)) := by
  have hi : i < cs.length := by
    by_contra hge
    rw [List.getElem?_eq_none (by omega)] at hc
    cases hc
  have hsplit : cs = cs.take i ++ c :: cs.drop (i + 1) := by
    conv_lhs => rw [← List.take_append_drop i cs]
    congr 1
    rw [List.drop_eq_getElem_cons hi]
    rw [List.getElem?_eq_getElem hi] at hc
    rw [Option.some.inj hc]
  have herase : cs.eraseIdx i = cs.take i ++ cs.drop (i + 1) :=
    List.eraseIdx_eq_take_drop_succ cs i
  rw [herase]
  conv_rhs => rw [hsplit]
  rw [cladeTaxaL_append, cladeTaxaL_append, cladeTaxaL]
  show ((cladeTaxaL (cs.take i) ++ cladeTaxaL (cs.drop (i + 1))) ++ cladeTaxa c
      : Multiset (Option String)) = _
  rw [Multiset.coe_eq_coe, List.append_assoc]
  exact List.Perm.append_left _ List.perm_append_comm

theorem mem_split_of_add_eq {A B C : List (Option String)}
    (h : (A : Multiset (Option String)) + (B : Multiset (Option String)) = C)
    (hnd : C.Nodup) :
    ∀ x, x ∈ A ↔ x ∈ C ∧ x ∉ B := by
  intro x
  have hcnt := congrArg (Multiset.count x) h
  rw [Multiset.count_add] at hcnt
  have hC1 : Multiset.count x (C : Multiset (Option String)) ≤ 1 :=
    Multiset.nodup_iff_count_le_one.mp (by exact Multiset.coe_nodup.mpr hnd) x
  have hmemA : x ∈ A ↔ 1 ≤ Multiset.count x (A : Multiset (Option String)) := by
    rw [Multiset.one_le_count_iff_mem, Multiset.mem_coe]
  have hmemB : x ∈ B ↔ 1 ≤ Multiset.count x (B : Multiset (Option String)) := by
    rw [Multiset.one_le_count_iff_mem, Multiset.mem_coe]
  have hmemC : x ∈ C ↔ 1 ≤ Multiset.count x (C : Multiset (Option String)) := by
    rw [Multiset.one_le_count_iff_mem, Multiset.mem_coe]
  rw [hmemA, hmemB, hmemC]
  omega

theorem out_in_pair {src c1 c2 : TNode} (hc : src.children = [c1, c2]) :
    (outChild src = c1 ∧ inChild src = c2) ∨
    (outChild src = c2 ∧ inChild src = c1) := by
  have h1 : outChild src = if countTips c2 < countTips c1 then c2 else c1 := by
    simp [outChild, hc]
  have h2 : inChild src = if countTips c2 < countTips c1 then c1 else c2 := by
    simp [inChild, hc]
  by_cases hlt : countTips c2 < countTips c1
  · right
    rw [h1, h2, if_pos hlt, if_pos hlt]
    exact ⟨rfl, rfl⟩
  · left
    rw [h1, h2, if_neg hlt, if_neg hlt]
    exact ⟨rfl, rfl⟩

theorem mem_other_side {A B S : List (Option String)}
    (hS : ∀ x, x ∈ S ↔ x ∈ A ∨ x ∈ B)
    (hdisj : ∀ x, x ∈ A → x ∉ B) :
    ∀ x, x ∈ B ↔ x ∈ S ∧ x ∉ A := by
  intro x
  constructor
  · intro hxB
    exact ⟨(hS x).mpr (.inr hxB), fun hxA => hdisj x hxA hxB⟩
  · rintro ⟨hxS, hxA⟩
    rcases (hS x).mp hxS with h | h
    · exact absurd h hxA
    · exact h

/-- Upward `walk_copy` both succeeds and produces exactly the
complement of the avoided child's clade (as a multiset of tip names),
provided the apex keeps at least 3 children. -/
theorem walkCopy_up_taxa :
    ∀ (ctx : List Frame) (t : TNode) (i : ℕ) (c : TNode),
      t.children[i]? = some c →
      upOK ctx t →
      3 ≤ (plugAll ctx t).children.length →
      ∃ r, walkCopy ctx t (.child i) = .ok r ∧
        (cladeTaxa r : Multiset (Option String)) + (cladeTaxa c)
          = (cladeTaxa (plugAll ctx t) : Multiset (Option String)) := by
  intro ctx
  induction ctx with
  | nil =>
    intro t i c hc hok harity
    have hne : t.children.length ≠ 2 := hok
    refine ⟨_, walkCopy_root_up hne hc, ?_⟩
    have hi : i < t.children.length := by
      by_contra hge
      rw [List.getElem?_eq_none (by omega)] at hc
      cases hc
    have harJ : 3 ≤ t.children.length := harity
    have h1 : cladeTaxa (TNode.mk t.name c.length
        (walkDown.walkDownL (t.children.eraseIdx i)))
        = cladeTaxaL (t.children.eraseIdx i) := by
      rw [show (TNode.mk t.name c.length
          (walkDown.walkDownL (t.children.eraseIdx i)))
        = TNode.mk t.name c.length (t.children.eraseIdx i) by rw [walkDownL_id]]
      refine cladeTaxa_internal ?_
      show t.children.eraseIdx i ≠ []
      have hlen := List.length_eraseIdx (l := t.children) (i := i)
      intro hnil
      rw [hnil] at hlen
      simp only [List.length_nil] at hlen
      split at hlen <;> omega
    rw [h1, taxa_eraseIdx hc]
    rw [show plugAll [] t = t from rfl]
    rw [cladeTaxa_internal (by intro hnil; rw [hnil] at hi; simp at hi)]
  | cons f ctx ih =>
    intro t i c hc hok harity
    by_cases hb : ctx = [] ∧ (f.before ++ f.after).length = 1
    · exfalso
      obtain ⟨hc1, hc2⟩ := hb
      subst hc1
      have hpl := plugF_children_length (f := f) (t := t)
      have hstep : plugAll [f] t = plugF f t := rfl
      rw [hstep] at harity
      omega
    · have hok' : upOK ctx (plugF f t) := by
        cases hcx : ctx with
        | nil =>
          subst hcx
          show (plugF f t).children.length ≠ 2
          have := plugF_children_length (f := f) (t := t)
          have hlen1 : (f.before ++ f.after).length ≠ 1 := fun hl => hb ⟨rfl, hl⟩
          omega
        | cons g ctx' =>
          subst hcx
          exact hok
      have harity' : 3 ≤ (plugAll ctx (plugF f t)).children.length := harity
      obtain ⟨up, hup, htaxa⟩ :=
        ih (plugF f t) f.before.length t plugF_child hok' harity'
      refine ⟨_, walkCopy_up_step hb hc hup, ?_⟩
      have hchild_ne : t.children ≠ [] := by
        intro hnil
        rw [hnil] at hc
        cases hc
      have h2 : cladeTaxa (TNode.mk t.name c.length
          (walkDown.walkDownL (t.children.eraseIdx i) ++ [up]))
          = cladeTaxaL (t.children.eraseIdx i) ++ cladeTaxa up := by
        rw [cladeTaxa_internal (by
          show walkDown.walkDownL (t.children.eraseIdx i) ++ [up] ≠ []
          simp)]
        show cladeTaxaL (walkDown.walkDownL (t.children.eraseIdx i) ++ [up]) = _
        rw [walkDownL_id, cladeTaxaL_append, cladeTaxaL, cladeTaxaL,
          List.append_nil]
      rw [h2]
      rw [show plugAll (f :: ctx) t = plugAll ctx (plugF f t) from rfl, ← htaxa]
      have h3 : cladeTaxa t = cladeTaxaL t.children := cladeTaxa_internal hchild_ne
      rw [h3, ← taxa_eraseIdx hc]
      rw [show ((cladeTaxaL (t.children.eraseIdx i) ++ cladeTaxa up
          : List (Option String)) : Multiset (Option String))
        = (cladeTaxaL (t.children.eraseIdx i) : Multiset (Option String))
          + (cladeTaxa up : Multiset (Option String)) from rfl]
      abel

/-- C6 amended: for every input pair passing the three precondition
checks, with unique tip names on both sides, defined lengths below the
target apex, an unrooted target apex of degree at least 3, and — the
hypothesis the counterexample forces — an outgroup that is monophyletic
in the target (its LCA there is a non-apex node whose clade taxa are
exactly the outgroup), `restore_rooting` returns a strictly rooted tree
whose two root clades carry exactly the outgroup taxa and the ingroup
taxa of `src`. -/
theorem c6_amended (src trg c1 c2 : TNode)
    (hc : src.children = [c1, c2])
    (h2 : 3 ≤ trg.children.length)
    (h3 : seteq (tipNames src) (tipNames trg) = true)
    (hnds : (tipNames src).Nodup)
    (hndt : (tipNames trg).Nodup)
    (hL : allLensL trg.children = true)
    (hlcane : lcaPath trg (tipNames (outChild src)) ≠ [])
    (hmono : ∀ ctxm tlm,
      locate trg (lcaPath trg (tipNames (outChild src))) = some (ctxm, tlm) →
      seteq (cladeTaxa tlm) (tipNames (outChild src)) = true) :
    ∃ C, restoreRooting src trg = .ok C ∧ C.children.length = 2 ∧
      rootBipartitionB C (cladeTaxa (outChild src)) (cladeTaxa (inChild src))
        = true := by
  obtain ⟨ctxl, tl, hloc0⟩ := locate_lcaPath trg (tipNames (outChild src))
  have hmono' := hmono ctxl tl hloc0
  have hrr : restoreRooting src trg
      = rootAbove trg (lcaPath trg (tipNames (outChild src))) none := by
    unfold restoreRooting
    rw [if_neg (by rw [hc]; simp), if_neg (by omega), if_neg (by simp [h3])]
    show (if lcaPath trg (tipNames (outChild src)) = [] then _
      else rootAbove trg (lcaPath trg (tipNames (outChild src))) none) = _
    rw [if_neg hlcane]
  obtain ⟨i, q, hpq⟩ : ∃ i q, lcaPath trg (tipNames (outChild src)) = i :: q := by
    cases hp : lcaPath trg (tipNames (outChild src)) with
    | nil => exact absurd hp hlcane
    | cons i q => exact ⟨i, q, rfl⟩
  rw [hpq] at hloc0
  obtain ⟨f, ctx', hf⟩ : ∃ f ctx', ctxl = f :: ctx' := by
    obtain ⟨_, hiff⟩ := locate_plug _ trg _ _ hloc0
    cases hcx : ctxl with
    | nil =>
      rw [hcx] at hiff
      cases hiff.mp rfl
    | cons f ctx' => exact ⟨f, ctx', rfl⟩
  subst hf
  have hplug := (locate_plug _ trg _ _ hloc0).1
  have hnb' : ¬(ctx' = [] ∧ (f.before ++ f.after).length = 1) := by
    rintro ⟨hc1, hsz⟩
    subst hc1
    have hT : plugF f tl = trg := hplug
    have hpl := plugF_children_length (f := f) (t := tl)
    rw [hT] at hpl
    omega
  have hroot' : ctx' = [] → trg.children.length ≠ 2 := fun _ => by omega
  have hup_ok := upOK_of_locate hloc0 hL hroot'
  have harity : 3 ≤ (plugAll ctx' (plugF f tl)).children.length := by
    rw [show plugAll ctx' (plugF f tl) = plugAll (f :: ctx') tl from rfl, hplug]
    exact h2
  obtain ⟨r, hr, htaxa⟩ := walkCopy_up_taxa ctx' (plugF f tl) f.before.length tl
    plugF_child hup_ok harity
  obtain ⟨_, _, hgood⟩ := locate_good _ trg _ _ hloc0 hL
  obtain ⟨halltl, _⟩ := hgood (by simp)
  obtain ⟨l, hl⟩ := Option.isSome_iff_exists.mp (allLens_isSome halltl)
  have hres : rootAbove trg (i :: q) none
      = .ok (.mk none none
          [setLen (.mk tl.name tl.length (walkDown.walkDownL tl.children)) (l / 2),
           setLen r (l / 2)]) := by
    rw [rootAbove_eq hloc0]
    simp only [walkCopy_down hnb', hr, hl, Except.bind]
  refine ⟨TNode.mk none none
      [setLen (.mk tl.name tl.length (walkDown.walkDownL tl.children)) (l / 2),
       setLen r (l / 2)],
    by rw [hrr, hpq, hres], rfl, ?_⟩
  -- the bipartition of the result
  have hog_clade : ∀ x, x ∈ cladeTaxa tl ↔ x ∈ tipNames (outChild src) :=
    seteq_iff.mp hmono'
  have hlt : cladeTaxa (setLen
      (.mk tl.name tl.length (walkDown.walkDownL tl.children)) (l / 2))
      = cladeTaxa tl := by
    rw [cladeTaxa_setLen, walkDownL_id, TNode.eta]
  have htrg_ne : trg.children ≠ [] := by
    intro hnil
    rw [hnil] at h2
    simp at h2
  have htrg_clade : cladeTaxa trg = tipNames trg := cladeTaxa_internal htrg_ne
  rw [show plugAll ctx' (plugF f tl) = plugAll (f :: ctx') tl from rfl,
    hplug, htrg_clade] at htaxa
  have hmemr := mem_split_of_add_eq htaxa hndt
  have hogne : tipNames (outChild src) ≠ [] := by
    obtain ⟨x, hx⟩ := List.exists_mem_of_ne_nil _ (cladeTaxa_ne_nil tl)
    intro hognil
    have hxin := (hog_clade x).mp hx
    rw [hognil] at hxin
    cases hxin
  have hout_int : (outChild src).children ≠ [] := by
    intro hnil
    apply hogne
    show cladeTaxaL (outChild src).children = []
    rw [hnil]
    rfl
  have hog_eq : cladeTaxa (outChild src) = tipNames (outChild src) :=
    cladeTaxa_internal hout_int
  have hsrc_iff : ∀ x, x ∈ tipNames src ↔ x ∈ tipNames trg :=
    seteq_iff.mp h3
  -- characterize the right-hand clade as the ingroup
  have hsplitsrc : tipNames src = cladeTaxa c1 ++ cladeTaxa c2 := by
    show cladeTaxaL src.children = _
    rw [hc, cladeTaxaL, cladeTaxaL, cladeTaxaL, List.append_nil]
  have hdisj12 : ∀ x, x ∈ cladeTaxa c1 → x ∉ cladeTaxa c2 := by
    have := hnds
    rw [hsplitsrc] at this
    intro x hx1 hx2
    exact (List.disjoint_of_nodup_append this) hx1 hx2
  have hin_iff : ∀ x, x ∈ cladeTaxa (inChild src) ↔
      x ∈ tipNames src ∧ x ∉ cladeTaxa (outChild src) := by
    rcases out_in_pair hc with ⟨hoc, hic⟩ | ⟨hoc, hic⟩
    · rw [hoc, hic]
      refine mem_other_side (fun x => ?_) hdisj12
      rw [hsplitsrc, List.mem_append]
    · rw [hoc, hic]
      refine mem_other_side (fun x => ?_) (fun x hx2 hx1 => hdisj12 x hx1 hx2)
      rw [hsplitsrc, List.mem_append]
      exact Or.comm
  have hrt_iff : ∀ x, x ∈ cladeTaxa r ↔ x ∈ cladeTaxa (inChild src) := by
    intro x
    rw [hmemr x, hin_iff x, hog_eq]
    constructor
    · rintro ⟨hxt, hxn⟩
      exact ⟨(hsrc_iff x).mpr hxt, fun hxo => hxn ((hog_clade x).mpr hxo)⟩
    · rintro ⟨hxs, hxn⟩
      exact ⟨(hsrc_iff x).mp hxs, fun hxt => hxn ((hog_clade x).mp hxt)⟩
  show ((seteq (cladeTaxa (setLen (.mk tl.name tl.length
        (walkDown.walkDownL tl.children)) (l / 2))) (cladeTaxa (outChild src))
      && seteq (cladeTaxa (setLen r (l / 2))) (cladeTaxa (inChild src)))
    || (seteq (cladeTaxa (setLen (.mk tl.name tl.length
        (walkDown.walkDownL tl.children)) (l / 2))) (cladeTaxa (inChild src))
      && seteq (cladeTaxa (setLen r (l / 2))) (cladeTaxa (outChild src))))
    = true
  rw [Bool.or_eq_true, Bool.and_eq_true, Bool.and_eq_true]
  left
  constructor
  · rw [hlt]
    refine seteq_iff.mpr (fun x => ?_)
    rw [hog_clade x, hog_eq]
  · rw [cladeTaxa_setLen]
    exact seteq_iff.mpr hrt_iff

theorem c6_amended_witness :
    ∃ C, restoreRooting nonMonoSrc monoTrg = .ok C ∧ C.children.length = 2 ∧
      rootBipartitionB C (cladeTaxa (outChild nonMonoSrc))
        (cladeTaxa (inChild nonMonoSrc)) = true :=
  c6_amended nonMonoSrc monoTrg
    (.mk (some "X") (some 1) [tip "a" 1, tip "b" 1])
    (.mk (some "Y") (some 1) [tip "c" 1, tip "d" 1, tip "e" 1])
    (by with_unfolding_all rfl)
    (by with_unfolding_all decide)
    (by with_unfolding_all decide)
    (by with_unfolding_all decide)
    (by with_unfolding_all decide)
    (by with_unfolding_all rfl)
    (by with_unfolding_all decide)
    (by
      intro ctxm tlm h
      rw [show lcaPath monoTrg (tipNames (outChild nonMonoSrc)) = [0] from by
        with_unfolding_all rfl] at h
      rw [show locate monoTrg [0]
          = some ([⟨some "p", none, [],
              [tip "c" 1, .mk (some "m") (some 1) [tip "d" 1, tip "e" 1]]⟩],
            .mk (some "n") (some 2) [tip "a" 1, tip "b" 1]) from by
        with_unfolding_all rfl] at h
      have htl : tlm = .mk (some "n") (some 2) [tip "a" 1, tip "b" 1] :=
        (congrArg Prod.snd (Option.some.inj h)).symm
      rw [htl]
      with_unfolding_all decide)

/-! ### Helper lemmas about label restoration -/

theorem relabelL_eq_map (tbl : List (String × List (Option String))) :
    ∀ cs : List TNode, relabelL tbl cs = cs.map (relabel tbl)
  | [] => rfl
  | c :: cs => by rw [relabelL, List.map_cons, relabelL_eq_map tbl cs]

theorem relabel_children (tbl : List (String × List (Option String))) (t : TNode) :
    (relabel tbl t).children = t.children.map (relabel tbl) := by
  cases t with
  | mk n l cs =>
    cases cs with
    | nil => rfl
    | cons c cs' =>
      show (relabel tbl (.mk n l (c :: cs'))).children = _
      rw [relabel]
      exact relabelL_eq_map tbl (c :: cs')

theorem subtreeAt_cons (t : TNode) (i : ℕ) (p : List ℕ) :
    subtreeAt t (i :: p)
      = match t.children[i]? with
        | some c => subtreeAt c p
        | none => none := by
  cases h : t.children[i]? with
  | none => simp [subtreeAt, locate, h]
  | some c =>
    cases hl : locate c p with
    | none => simp [subtreeAt, locate, h, hl]
    | some q => simp [subtreeAt, locate, h, hl]

theorem subtreeAt_relabel (tbl : List (String × List (Option String))) :
    ∀ (p : List ℕ) (t : TNode),
      subtreeAt (relabel tbl t) p = (subtreeAt t p).map (relabel tbl)
  | [], t => rfl
  | i :: p, t => by
    rw [subtreeAt_cons, subtreeAt_cons, relabel_children, List.getElem?_map]
    cases h : t.children[i]? with
    | none => rfl
    | some c => exact subtreeAt_relabel tbl p c

theorem relabel_name_cases (tbl : List (String × List (Option String)))
    (t : TNode) :
    (relabel tbl t).name = t.name ∨
    ∃ e ∈ tbl, (relabel tbl t).name = some e.1 := by
  cases t with
  | mk n l cs =>
    cases cs with
    | nil => exact .inl rfl
    | cons c cs' =>
      rw [relabel]
      cases hf : tbl.find? (fun e => seteq e.2 (cladeTaxaL (c :: cs'))) with
      | none => left; simp [hf, TNode.name]
      | some e =>
        right
        exact ⟨e, List.mem_of_find?_eq_some hf, by simp [hf, TNode.name]⟩

theorem collectStep_ok {acc acc' : List (String × List (Option String))}
    {a : TNode} (h : collectStep acc a = .ok acc') :
    acc' = acc ∨
    ∃ l, a.children ≠ [] ∧ a.name = some l ∧ acc' = acc ++ [(l, tipNames a)] := by
  cases a with
  | mk n l cs =>
    cases cs with
    | nil =>
      left
      unfold collectStep at h
      simp only [TNode.children, List.isEmpty_nil, if_true] at h
      exact (Except.ok.inj h).symm
    | cons c cs' =>
      cases n with
      | none =>
        left
        unfold collectStep at h
        simp only [TNode.children, TNode.name, List.isEmpty_cons, if_false] at h
        exact (Except.ok.inj h).symm
      | some lb =>
        unfold collectStep at h
        simp only [TNode.children, TNode.name, List.isEmpty_cons, if_false] at h
        by_cases hlb : lb = ""
        · rw [if_pos hlb] at h
          exact .inl (Except.ok.inj h).symm
        · rw [if_neg hlb] at h
          by_cases hany : (acc.any fun e => e.1 = lb) = true
          · rw [if_pos hany] at h
            cases h
          · rw [if_neg hany] at h
            exact .inr ⟨lb, by simp [TNode.children], rfl, (Except.ok.inj h).symm⟩

theorem collect_fold_mem :
    ∀ (l : List TNode) (acc tbl : List (String × List (Option String))),
      l.foldlM collectStep acc = .ok tbl →
      ∀ e ∈ tbl, e ∈ acc ∨ ∃ m ∈ l, m.children ≠ [] ∧ m.name = some e.1 := by
  intro l
  induction l with
  | nil =>
    intro acc tbl h e he
    rw [List.foldlM_nil] at h
    cases h
    exact .inl he
  | cons a l ih =>
    intro acc tbl h e he
    rw [List.foldlM_cons] at h
    cases hs : collectStep acc a with
    | error err => rw [hs] at h; cases h
    | ok acc' =>
      rw [hs] at h
      rcases ih acc' tbl h e he with hin | ⟨m, hm, hne, hname⟩
      · rcases collectStep_ok hs with rfl | ⟨lb, hne, hname, rfl⟩
        · exact .inl hin
        · rcases List.mem_append.mp hin with hin' | hin'
          · exact .inl hin'
          · right
            refine ⟨a, List.mem_cons_self a l, hne, ?_⟩
            have : e = (lb, tipNames a) := by simpa using hin'
            rw [this] at *
            exact hname
      · exact .inr ⟨m, List.mem_cons_of_mem a hm, hne, hname⟩

/-- C8: whenever `src` has no duplicate non-empty internal labels
(`collectLabels` succeeds), `restore_node_labels` succeeds for every
`trg` — labels whose tip set matches no node are silently omitted rather
than reported — and every node of the result whose name differs from the
name of the corresponding node of `trg` carries a label of some internal
node of `src`. -/
theorem c8_labels (src trg : TNode) (tbl : List (String × List (Option String)))
    (h : collectLabels src = .ok tbl) :
    restoreNodeLabels src trg = .ok (relabel tbl trg) ∧
    ∀ p n n', subtreeAt trg p = some n →
      subtreeAt (relabel tbl trg) p = some n' →
      n'.name ≠ n.name →
      ∃ m ∈ postT src, m.children ≠ [] ∧ m.name = n'.name := by
  constructor
  · unfold restoreNodeLabels
    rw [h]
    rfl
  · intro p n n' hn hn' hne
    rw [subtreeAt_relabel, hn, Option.map_some'] at hn'
    have hn'eq : n' = relabel tbl n := (Option.some.inj hn').symm
    subst hn'eq
    rcases relabel_name_cases tbl n with hsame | ⟨e, he, hname⟩
    · exact absurd hsame hne
    · rcases collect_fold_mem (postT src) [] tbl h e he with hin | ⟨m, hm, hc, hnm⟩
      · cases hin
      · exact ⟨m, hm, hc, by rw [hname, hnm]⟩

/-- Witness for C8: restoring labels of `basalRootedTree` onto an
unlabeled copy of the same topology succeeds, and the node at path `[0]`
— renamed from `None` to `x` — got its name from an internal node of the
source. -/
theorem c8_witness :
    restoreNodeLabels basalRootedTree unlabeledTrg
      = .ok (relabel
          [("x", [some "a", some "b"]), ("y", [some "c", some "d"]),
           ("r", [some "a", some "b", some "c", some "d"])] unlabeledTrg) ∧
    ∃ m ∈ postT basalRootedTree, m.children ≠ [] ∧
      m.name = some "x" := by
  obtain ⟨h1, h2⟩ :=
    c8_labels basalRootedTree unlabeledTrg
      [("x", [some "a", some "b"]), ("y", [some "c", some "d"]),
       ("r", [some "a", some "b", some "c", some "d"])]
      (by with_unfolding_all rfl)
  refine ⟨h1, ?_⟩
  have h3 := h2 [0] (.mk none (some 1) [tip "a" 1, tip "b" 1])
    (.mk (some "x") (some 1) [tip "a" 1, tip "b" 1])
    (by with_unfolding_all rfl) (by with_unfolding_all rfl) (by decide)
  exact h3

/-! ### Helper lemmas about node names, paths and `updateAt` -/

theorem namesT_mk (n : Option String) (l : Option ℚ) (cs : List TNode) :
    namesT (.mk n l cs) = n :: namesL cs := rfl

theorem namesL_nil : namesL [] = [] := rfl

theorem namesL_cons (c : TNode) (cs : List TNode) :
    namesL (c :: cs) = namesT c ++ namesL cs := by
  rw [namesL, preL, List.map_append]
  rfl

theorem namesL_append : ∀ xs ys : List TNode,
    namesL (xs ++ ys) = namesL xs ++ namesL ys
  | [], ys => rfl
  | x :: xs, ys => by
    rw [List.cons_append, namesL_cons, namesL_cons, namesL_append xs ys,
      List.append_assoc]

theorem self_mem_preT (t : TNode) : t ∈ preT t := by
  cases t
  rw [preT]
  exact List.mem_cons_self _ _

theorem subtreeAt_nil (t : TNode) : subtreeAt t [] = some t := rfl

theorem updateAt_nil (t : TNode) (g : TNode → Except Err TNode) :
    updateAt t [] g = g t := by
  cases t
  rfl

theorem mem_preL_of_mem_preT : ∀ (cs : List TNode) (c w : TNode),
    c ∈ cs → w ∈ preT c → w ∈ preL cs
  | [], c, w => fun hc _ => absurd hc (List.not_mem_nil c)
  | c0 :: cs, c, w => fun hc hw => by
    rw [preL]
    rcases List.mem_cons.mp hc with rfl | h'
    · exact List.mem_append.mpr (.inl hw)
    · exact List.mem_append.mpr (.inr (mem_preL_of_mem_preT cs c w h' hw))

theorem subtreeAt_child {t : TNode} {i : ℕ} {c : TNode}
    (h : t.children[i]? = some c) (p : List ℕ) :
    subtreeAt t (i :: p) = subtreeAt c p := by
  rw [subtreeAt_cons, h]

theorem subtreeAt_mem_preT : ∀ (p : List ℕ) (t w : TNode),
    subtreeAt t p = some w → w ∈ preT t
  | [], t, w => fun h => by
    rw [show subtreeAt t [] = some t from rfl] at h
    injection h with h
    rw [h]
    exact self_mem_preT w
  | i :: p, t, w => fun h => by
    cases hc : t.children[i]? with
    | none => rw [subtreeAt_cons, hc] at h; cases h
    | some c =>
      rw [subtreeAt_child hc] at h
      have hw := subtreeAt_mem_preT p c w h
      have hcm : c ∈ t.children := List.getElem?_mem hc
      cases t with
      | mk n l cs =>
        rw [preT]
        exact List.mem_cons.mpr (.inr (mem_preL_of_mem_preT cs c w hcm hw))

mutual

theorem path_of_mem_preT : ∀ (t w : TNode), w ∈ preT t →
    ∃ p, subtreeAt t p = some w
  | .mk n l cs, w => fun h => by
    rw [preT] at h
    rcases List.mem_cons.mp h with rfl | h'
    · exact ⟨[], rfl⟩
    · obtain ⟨j, c, hj, p, hp⟩ := path_of_mem_preL cs w h'
      refine ⟨j :: p, ?_⟩
      rw [subtreeAt_child (show (TNode.mk n l cs).children[j]? = some c from hj)]
      exact hp

theorem path_of_mem_preL : ∀ (cs : List TNode) (w : TNode), w ∈ preL cs →
    ∃ (j : ℕ) (c : TNode), cs[j]? = some c ∧ ∃ p, subtreeAt c p = some w
  | [], w => fun h => by rw [preL] at h; exact absurd h (List.not_mem_nil w)
  | c0 :: cs, w => fun h => by
    rw [preL] at h
    rcases List.mem_append.mp h with h' | h'
    · obtain ⟨p, hp⟩ := path_of_mem_preT c0 w h'
      exact ⟨0, c0, by rw [List.getElem?_cons_zero], p, hp⟩
    · obtain ⟨j, c, hj, p, hp⟩ := path_of_mem_preL cs w h'
      exact ⟨j + 1, c, by rw [List.getElem?_cons_succ]; exact hj, p, hp⟩

end

theorem subtreeAt_append : ∀ (p : List ℕ) (t : TNode) (q : List ℕ),
    subtreeAt t (p ++ q)
      = match subtreeAt t p with
        | some v => subtreeAt v q
        | none => none
  | [], t, q => rfl
  | i :: p, t, q => by
    cases hc : t.children[i]? with
    | none => rw [List.cons_append, subtreeAt_cons, hc, subtreeAt_cons, hc]
    | some c =>
      rw [List.cons_append, subtreeAt_child hc, subtreeAt_child hc,
        subtreeAt_append p c q]

theorem subtreeAt_append_some {t v w : TNode} {p q : List ℕ}
    (h1 : subtreeAt t p = some v) (h2 : subtreeAt v q = some w) :
    subtreeAt t (p ++ q) = some w := by
  rw [subtreeAt_append, h1]
  exact h2

theorem preT_trans {u v w : TNode} (hv : v ∈ preT u) (hw : w ∈ preT v) :
    w ∈ preT u := by
  obtain ⟨p, hp⟩ := path_of_mem_preT u v hv
  obtain ⟨q, hq⟩ := path_of_mem_preT v w hw
  exact subtreeAt_mem_preT (p ++ q) u w (subtreeAt_append_some hp hq)

mutual

theorem namesT_sublist : ∀ (u v : TNode), v ∈ preT u →
    List.Sublist (namesT v) (namesT u)
  | .mk n l cs, v => fun h => by
    rw [preT] at h
    rcases List.mem_cons.mp h with rfl | h'
    · exact List.Sublist.refl _
    · rw [namesT_mk]
      exact (namesL_sublist cs v h').cons n

theorem namesL_sublist : ∀ (cs : List TNode) (v : TNode), v ∈ preL cs →
    List.Sublist (namesT v) (namesL cs)
  | [], v => fun h => by rw [preL] at h; exact absurd h (List.not_mem_nil v)
  | c :: cs, v => fun h => by
    rw [preL] at h
    rw [namesL_cons]
    rcases List.mem_append.mp h with h' | h'
    · exact (namesT_sublist c v h').trans (List.sublist_append_left _ _)
    · exact (namesL_sublist cs v h').trans (List.sublist_append_right _ _)

end

theorem childNames_sublist : ∀ cs : List TNode,
    List.Sublist (cs.map TNode.name) (namesL cs)
  | [] => by rw [List.map_nil, namesL_nil]
  | c :: cs => by
    rw [List.map_cons, namesL_cons]
    cases c with
    | mk n l cs0 =>
      rw [namesT_mk]
      show List.Sublist (n :: cs.map TNode.name) ((n :: namesL cs0) ++ namesL cs)
      rw [List.cons_append]
      exact ((childNames_sublist cs).trans (List.sublist_append_right _ _)).cons₂ n

theorem set_self : ∀ (cs : List TNode) (i : ℕ) (c : TNode),
    cs[i]? = some c → cs.set i c = cs
  | [], i, c => fun h => by rw [List.getElem?_nil] at h; cases h
  | a :: cs, 0, c => fun h => by
    rw [List.getElem?_cons_zero] at h
    injection h with h
    rw [List.set_cons_zero, h]
  | a :: cs, i + 1, c => fun h => by
    rw [List.getElem?_cons_succ] at h
    rw [List.set_cons_succ, set_self cs i c h]

theorem set_mid : ∀ (done : List TNode) (q x : TNode) (rest : List TNode),
    (done ++ q :: rest).set done.length x = done ++ x :: rest
  | [], q, x, rest => by
    rw [List.nil_append, List.nil_append, List.length_nil, List.set_cons_zero]
  | d :: done, q, x, rest => by
    rw [List.cons_append, List.cons_append, List.length_cons, List.set_cons_succ,
      set_mid done q x rest]

theorem getElem_mid : ∀ (done : List TNode) (q : TNode) (rest : List TNode),
    (done ++ q :: rest)[done.length]? = some q
  | [], q, rest => by
    rw [List.nil_append, List.length_nil, List.getElem?_cons_zero]
  | d :: done, q, rest => by
    rw [List.cons_append, List.length_cons, List.getElem?_cons_succ,
      getElem_mid done q rest]

theorem updateAt_cons_some {n : Option String} {l : Option ℚ} {cs : List TNode}
    {i : ℕ} {c : TNode} (h : cs[i]? = some c) (p : List ℕ)
    (g : TNode → Except Err TNode) :
    updateAt (.mk n l cs) (i :: p) g
      = match updateAt c p g with
        | .ok c' => .ok (.mk n l (cs.set i c'))
        | .error e => .error e := by
  rw [updateAt, h]
  show (updateAt c p g >>= fun c' => Except.ok (TNode.mk n l (cs.set i c'))) = _
  cases hres : updateAt c p g with
  | ok c' => rfl
  | error e => rfl

theorem updateAt_append : ∀ (p : List ℕ) (t : TNode) (q : List ℕ)
    (g : TNode → Except Err TNode),
    updateAt t (p ++ q) g = updateAt t p (fun v => updateAt v q g)
  | [], t, q, g => by rw [List.nil_append, updateAt_nil]
  | i :: p, t, q, g => by
    cases t with
    | mk n l cs =>
      cases hc : cs[i]? with
      | none => rw [List.cons_append, updateAt, hc, updateAt, hc]
      | some c =>
        rw [List.cons_append, updateAt_cons_some hc, updateAt_cons_some hc,
          updateAt_append p c q g]

theorem updateAt_ok_inv : ∀ (p : List ℕ) (t t' : TNode)
    (g : TNode → Except Err TNode),
    updateAt t p g = .ok t' →
    ∃ v v', subtreeAt t p = some v ∧ g v = .ok v' ∧
      updateAt t p (fun _ => Except.ok v') = .ok t'
  | [], t, t', g => fun h => by
    refine ⟨t, t', subtreeAt_nil t, ?_, ?_⟩
    · rw [← updateAt_nil t g]
      exact h
    · cases t
      rfl
  | i :: p, t, t', g => fun h => by
    cases t with
    | mk n l cs =>
      cases hc : cs[i]? with
      | none => rw [updateAt, hc] at h; cases h
      | some c =>
        rw [updateAt_cons_some hc] at h
        cases hres : updateAt c p g with
        | error e => rw [hres] at h; cases h
        | ok c1 =>
          rw [hres] at h
          obtain ⟨v, v', hsub, hg, hrep⟩ := updateAt_ok_inv p c c1 g hres
          refine ⟨v, v', ?_, hg, ?_⟩
          · rw [subtreeAt_child
              (show (TNode.mk n l cs).children[i]? = some c from hc)]
            exact hsub
          · rw [updateAt_cons_some hc, hrep]
            exact h

theorem updateAt_noop : ∀ (p : List ℕ) (t v : TNode)
    (g : TNode → Except Err TNode),
    subtreeAt t p = some v → g v = .ok v → updateAt t p g = .ok t
  | [], t, v, g => fun hs hg => by
    rw [subtreeAt_nil] at hs
    injection hs with hs
    rw [updateAt_nil, hs, hg]
  | i :: p, t, v, g => fun hs hg => by
    cases t with
    | mk n l cs =>
      cases hc : cs[i]? with
      | none =>
        rw [subtreeAt_cons,
          show (TNode.mk n l cs).children = cs from rfl, hc] at hs
        cases hs
      | some c =>
        have hs' : subtreeAt c p = some v := by
          rw [← subtreeAt_child
            (show (TNode.mk n l cs).children[i]? = some c from hc)]
          exact hs
        have hset := set_self cs i c hc
        rw [updateAt_cons_some hc, updateAt_noop p c v g hs' hg]
        show Except.ok (TNode.mk n l (cs.set i c)) = Except.ok (TNode.mk n l cs)
        rw [hset]

theorem updateAt_congr_at : ∀ (p : List ℕ) (t v : TNode)
    (g g' : TNode → Except Err TNode),
    subtreeAt t p = some v → g v = g' v → updateAt t p g = updateAt t p g'
  | [], t, v, g, g' => fun hs hgg => by
    rw [subtreeAt_nil] at hs
    injection hs with hs
    rw [updateAt_nil, updateAt_nil, hs, hgg]
  | i :: p, t, v, g, g' => fun hs hgg => by
    cases t with
    | mk n l cs =>
      cases hc : cs[i]? with
      | none => rw [updateAt, hc, updateAt, hc]
      | some c =>
        have hs' : subtreeAt c p = some v := by
          rw [← subtreeAt_child
            (show (TNode.mk n l cs).children[i]? = some c from hc)]
          exact hs
        rw [updateAt_cons_some hc, updateAt_cons_some hc,
          updateAt_congr_at p c v g g' hs' hgg]

theorem replace_replace : ∀ (p q : List ℕ) (t u2 y x : TNode),
    updateAt t (p ++ q) (fun _ => Except.ok y) = .ok u2 →
    updateAt t p (fun _ => Except.ok x) = updateAt u2 p (fun _ => Except.ok x)
  | [], q, t, u2, y, x => fun _ => by rw [updateAt_nil, updateAt_nil]
  | i :: p, q, t, u2, y, x => fun h => by
    cases t with
    | mk n l cs =>
      cases hc : cs[i]? with
      | none => rw [List.cons_append, updateAt, hc] at h; cases h
      | some c =>
        rw [List.cons_append, updateAt_cons_some hc] at h
        cases hres : updateAt c (p ++ q) (fun _ => Except.ok y) with
        | error e => rw [hres] at h; cases h
        | ok c2 =>
          rw [hres] at h
          have hu2 : u2 = .mk n l (cs.set i c2) :=
            (Except.ok.inj (show Except.ok (TNode.mk n l (cs.set i c2))
              = Except.ok u2 from h)).symm
          subst hu2
          have hi : i < cs.length := by
            by_contra hni
            rw [List.getElem?_eq_none (by omega)] at hc
            cases hc
          have hc2 : (cs.set i c2)[i]? = some c2 := by
            simp [List.getElem?_set_self, hi]
          rw [updateAt_cons_some hc, updateAt_cons_some hc2,
            replace_replace p q c c2 y x hres]
          cases h2 : updateAt c2 p (fun _ => Except.ok x) with
          | error e => rfl
          | ok c3 =>
            show Except.ok (TNode.mk n l (cs.set i c3))
              = Except.ok (TNode.mk n l ((cs.set i c2).set i c3))
            rw [List.set_set]

theorem subtreeAt_replace : ∀ (p : List ℕ) (t t' x : TNode),
    updateAt t p (fun _ => Except.ok x) = .ok t' → subtreeAt t' p = some x
  | [], t, t', x => fun h => by
    rw [updateAt_nil] at h
    have hx : x = t' := Except.ok.inj h
    rw [← hx]
    exact subtreeAt_nil x
  | i :: p, t, t', x => fun h => by
    cases t with
    | mk n l cs =>
      cases hc : cs[i]? with
      | none => rw [updateAt, hc] at h; cases h
      | some c =>
        rw [updateAt_cons_some hc] at h
        cases hres : updateAt c p (fun _ => Except.ok x) with
        | error e => rw [hres] at h; cases h
        | ok c2 =>
          rw [hres] at h
          have ht' : t' = .mk n l (cs.set i c2) :=
            (Except.ok.inj (show Except.ok (TNode.mk n l (cs.set i c2))
              = Except.ok t' from h)).symm
          subst ht'
          have hi : i < cs.length := by
            by_contra hni
            rw [List.getElem?_eq_none (by omega)] at hc
            cases hc
          have hc2 : ((TNode.mk n l (cs.set i c2)).children)[i]? = some c2 := by
            show (cs.set i c2)[i]? = some c2
            simp [List.getElem?_set_self, hi]
          rw [subtreeAt_child hc2]
          exact subtreeAt_replace p c c2 x hres

theorem namesL_set : ∀ (cs : List TNode) (i : ℕ) (c c' : TNode),
    cs[i]? = some c →
    (namesL (cs.set i c') : Multiset (Option String)) + ↑(namesT c)
      = ↑(namesL cs) + ↑(namesT c')
  | [], i, c, c' => fun h => by rw [List.getElem?_nil] at h; cases h
  | a :: cs, 0, c, c' => fun h => by
    rw [List.getElem?_cons_zero] at h
    injection h with h
    rw [← h, List.set_cons_zero, namesL_cons, namesL_cons]
    show (↑(namesT c') + ↑(namesL cs) : Multiset (Option String)) + ↑(namesT a)
      = (↑(namesT a) + ↑(namesL cs)) + ↑(namesT c')
    abel
  | a :: cs, i + 1, c, c' => fun h => by
    rw [List.getElem?_cons_succ] at h
    rw [List.set_cons_succ, namesL_cons, namesL_cons]
    show (↑(namesT a) + ↑(namesL (cs.set i c')) : Multiset (Option String))
        + ↑(namesT c)
      = (↑(namesT a) + ↑(namesL cs)) + ↑(namesT c')
    rw [add_assoc, add_assoc]
    exact congrArg
      (fun m => (↑(namesT a) : Multiset (Option String)) + m)
      (namesL_set cs i c c' h)

theorem names_exchange : ∀ (p : List ℕ) (t v x t' : TNode),
    subtreeAt t p = some v →
    updateAt t p (fun _ => Except.ok x) = .ok t' →
    (namesT t' : Multiset (Option String)) + ↑(namesT v)
      = ↑(namesT t) + ↑(namesT x)
  | [], t, v, x, t' => fun hs h => by
    rw [subtreeAt_nil] at hs
    injection hs with hs
    rw [updateAt_nil] at h
    have hx : x = t' := Except.ok.inj h
    rw [← hx, ← hs]
    exact add_comm _ _
  | i :: p, t, v, x, t' => fun hs h => by
    cases t with
    | mk n l cs =>
      cases hc : cs[i]? with
      | none => rw [updateAt, hc] at h; cases h
      | some c =>
        have hs' : subtreeAt c p = some v := by
          rw [← subtreeAt_child
            (show (TNode.mk n l cs).children[i]? = some c from hc)]
          exact hs
        rw [updateAt_cons_some hc] at h
        cases hres : updateAt c p (fun _ => Except.ok x) with
        | error e => rw [hres] at h; cases h
        | ok c2 =>
          rw [hres] at h
          have ht' : t' = .mk n l (cs.set i c2) :=
            (Except.ok.inj (show Except.ok (TNode.mk n l (cs.set i c2))
              = Except.ok t' from h)).symm
          subst ht'
          have hex := names_exchange p c v x c2 hs' hres
          rw [namesT_mk, namesT_mk]
          show (Multiset.ofList (n :: namesL (cs.set i c2))) + ↑(namesT v)
            = (Multiset.ofList (n :: namesL cs)) + ↑(namesT x)
          rw [show (Multiset.ofList (n :: namesL (cs.set i c2)))
              = n ::ₘ ↑(namesL (cs.set i c2)) from rfl,
            show (Multiset.ofList (n :: namesL cs))
              = n ::ₘ ↑(namesL cs) from rfl,
            Multiset.cons_add, Multiset.cons_add]
          congr 1
          have hset := namesL_set cs i c c2 hc
          have hcomb : (↑(namesL (cs.set i c2)) + ↑(namesT v)
                : Multiset (Option String)) + ↑(namesT c)
              = (↑(namesL cs) + ↑(namesT x)) + ↑(namesT c) := by
            calc (↑(namesL (cs.set i c2)) + ↑(namesT v)
                  : Multiset (Option String)) + ↑(namesT c)
                = (↑(namesL (cs.set i c2)) + ↑(namesT c)) + ↑(namesT v) := by
                  abel
              _ = (↑(namesL cs) + ↑(namesT c2)) + ↑(namesT v) := by rw [hset]
              _ = ↑(namesL cs) + (↑(namesT c2) + ↑(namesT v)) := by
                  rw [add_assoc]
              _ = ↑(namesL cs) + (↑(namesT c) + ↑(namesT x)) := by rw [hex]
              _ = (↑(namesL cs) + ↑(namesT x)) + ↑(namesT c) := by abel
          exact add_right_cancel hcomb

theorem names_le_of_replace {p : List ℕ} {t v x t' : TNode}
    (hs : subtreeAt t p = some v)
    (hrep : updateAt t p (fun _ => Except.ok x) = .ok t')
    (hle : (namesT x : Multiset (Option String)) ≤ ↑(namesT v)) :
    (namesT t' : Multiset (Option String)) ≤ ↑(namesT t) := by
  have hex := names_exchange p t v x t' hs hrep
  have h2 : (namesT t' : Multiset (Option String)) + ↑(namesT v)
      ≤ ↑(namesT t) + ↑(namesT v) := by
    rw [hex]
    exact add_le_add_left hle _
  exact le_of_add_le_add_right h2

mutual

theorem findPathN_name_mem : ∀ (t : TNode) (nm : Option String) (p : List ℕ),
    findPathN t nm = some p → nm ∈ namesT t
  | .mk n l cs, nm, p => fun h => by
    rw [findPathN] at h
    by_cases hn : n = nm
    · rw [namesT_mk, ← hn]
      exact List.mem_cons_self _ _
    · rw [if_neg hn] at h
      rw [namesT_mk]
      exact List.mem_cons.mpr (.inr (findPathL_name_mem cs nm 0 p h))

theorem findPathL_name_mem : ∀ (cs : List TNode) (nm : Option String) (k : ℕ)
    (p : List ℕ), findPathL cs nm k = some p → nm ∈ namesL cs
  | [], nm, k, p => fun h => by rw [findPathL] at h; cases h
  | c :: cs, nm, k, p => fun h => by
    rw [findPathL] at h
    rw [namesL_cons]
    cases hf : findPathN c nm with
    | some q => exact List.mem_append.mpr (.inl (findPathN_name_mem c nm q hf))
    | none =>
      rw [hf] at h
      exact List.mem_append.mpr (.inr (findPathL_name_mem cs nm (k + 1) p h))

end

theorem findPathN_none {t : TNode} {nm : Option String} (h : nm ∉ namesT t) :
    findPathN t nm = none := by
  cases hf : findPathN t nm with
  | none => rfl
  | some p => exact absurd (findPathN_name_mem t nm p hf) h

mutual

theorem findPathN_unique : ∀ (t : TNode) (q : List ℕ) (w : TNode)
    (nm : Option String),
    (namesT t).Nodup → subtreeAt t q = some w → w.name = nm →
    findPathN t nm = some q
  | .mk n l cs, q, w, nm => fun hnd hs hw => by
    cases q with
    | nil =>
      rw [subtreeAt_nil] at hs
      injection hs with hs
      have hn : n = nm := by
        rw [← hw, ← hs]
        rfl
      rw [findPathN, if_pos hn]
    | cons i q' =>
      cases hc : (TNode.mk n l cs).children[i]? with
      | none => rw [subtreeAt_cons, hc] at hs; cases hs
      | some c =>
        rw [subtreeAt_child hc] at hs
        have hmem : nm ∈ namesT c := by
          rw [← hw]
          exact List.mem_map_of_mem TNode.name (subtreeAt_mem_preT q' c w hs)
        have hmemcs : nm ∈ namesL cs :=
          (namesL_sublist cs c (mem_preL_of_mem_preT cs c c
            (List.getElem?_mem hc) (self_mem_preT c))).subset hmem
        have hnd' : (namesL cs).Nodup := by
          rw [namesT_mk] at hnd
          exact (List.nodup_cons.mp hnd).2
        have hn : n ≠ nm := by
          rw [namesT_mk, List.nodup_cons] at hnd
          intro hn
          exact hnd.1 (by rw [hn]; exact hmemcs)
        rw [findPathN, if_neg hn,
          findPathL_unique cs i c q' w nm 0 hnd' hc hs hw, Nat.zero_add]

theorem findPathL_unique : ∀ (cs : List TNode) (j : ℕ) (c : TNode) (q' : List ℕ)
    (w : TNode) (nm : Option String) (k : ℕ),
    (namesL cs).Nodup → cs[j]? = some c → subtreeAt c q' = some w →
    w.name = nm → findPathL cs nm k = some ((k + j) :: q')
  | [], j, c, q', w, nm, k => fun _ hj _ _ => by
    rw [List.getElem?_nil] at hj
    cases hj
  | c0 :: cs, 0, c, q', w, nm, k => fun hnd hj hs hw => by
    rw [List.getElem?_cons_zero] at hj
    injection hj with hj
    subst hj
    have hnd0 : (namesT c0).Nodup := by
      rw [namesL_cons, List.nodup_append] at hnd
      exact hnd.1
    rw [findPathL, findPathN_unique c0 q' w nm hnd0 hs hw]
    show some (k :: q') = some ((k + 0) :: q')
    rw [Nat.add_zero]
  | c0 :: cs, j + 1, c, q', w, nm, k => fun hnd hj hs hw => by
    rw [List.getElem?_cons_succ] at hj
    rw [namesL_cons, List.nodup_append] at hnd
    have hmemc : nm ∈ namesT c := by
      rw [← hw]
      exact List.mem_map_of_mem TNode.name (subtreeAt_mem_preT q' c w hs)
    have hmemcs : nm ∈ namesL cs :=
      (namesL_sublist cs c (mem_preL_of_mem_preT cs c c
        (List.getElem?_mem hj) (self_mem_preT c))).subset hmemc
    have hnone : findPathN c0 nm = none :=
      findPathN_none (fun hin => hnd.2.2 hin hmemcs)
    rw [findPathL, hnone]
    have hrec := findPathL_unique cs j c q' w nm (k + 1) hnd.2.1 hj hs hw
    have harith : k + 1 + j = k + (j + 1) := by omega
    rw [harith] at hrec
    show findPathL cs nm (k + 1) = some ((k + (j + 1)) :: q')
    exact hrec

end

theorem lookupChild_self {cs : List TNode} (hnd : (cs.map TNode.name).Nodup)
    {c : TNode} (hc : c ∈ cs) : lookupChild cs c.name = some c := by
  rw [lookupChild]
  cases hf : cs.reverse.find? (fun d => d.name == c.name) with
  | none =>
    exfalso
    have hex : (cs.reverse.find? (fun d => d.name == c.name)).isSome :=
      List.find?_isSome.mpr ⟨c, List.mem_reverse.mpr hc, beq_self_eq_true c.name⟩
    rw [hf] at hex
    simp at hex
  | some d =>
    have hdm : d ∈ cs := List.mem_reverse.mp (List.mem_of_find?_eq_some hf)
    have hdn : d.name = c.name := by
      have hp := List.find?_some hf
      simpa using hp
    rw [List.inj_on_of_nodup_map hnd hdm hc hdn]

theorem reorder_mapM_exact (cs : List TNode) :
    ∀ scs sel : List TNode,
      (scs.mapM (fun sc =>
          match lookupChild cs sc.name with
          | some c => Except.ok c
          | none => Except.error Err.childMismatch) : Except Err (List TNode))
        = .ok sel →
      sel.map TNode.name = scs.map TNode.name ∧ ∀ c ∈ sel, c ∈ cs := by
  intro scs
  induction scs with
  | nil =>
    intro sel h
    have hsel : ([] : List TNode) = sel :=
      Except.ok.inj (show Except.ok ([] : List TNode) = Except.ok sel from h)
    subst hsel
    exact ⟨rfl, fun c hc => absurd hc (List.not_mem_nil c)⟩
  | cons sc scs ih =>
    intro sel h
    cases hlk : lookupChild cs sc.name with
    | none =>
      rw [reorder_mapM_err cs (sc :: scs) ⟨sc, List.mem_cons_self _ _, hlk⟩] at h
      cases h
    | some c =>
      rw [List.mapM_cons, hlk] at h
      cases hm : (scs.mapM (fun sc =>
          match lookupChild cs sc.name with
          | some c => Except.ok c
          | none => Except.error Err.childMismatch) : Except Err (List TNode)) with
      | error e =>
        rw [hm] at h
        exact Except.noConfusion h
      | ok xs =>
        rw [hm] at h
        have hsel : c :: xs = sel :=
          Except.ok.inj (show Except.ok (c :: xs) = Except.ok sel from h)
        subst hsel
        obtain ⟨hnames, hmem⟩ := ih xs hm
        obtain ⟨hcm, hcn⟩ := lookupChild_eq_some hlk
        refine ⟨?_, ?_⟩
        · rw [List.map_cons, List.map_cons, hnames, hcn]
        · intro d hd
          rcases List.mem_cons.mp hd with rfl | hd'
          · exact hcm
          · exact hmem d hd'

theorem reorderChildren_ok_inv {v v1 : TNode} {scs : List TNode}
    (h : reorderChildren v scs = .ok v1) :
    ∃ sel, v1 = .mk v.name v.length sel
      ∧ sel.map TNode.name = scs.map TNode.name
      ∧ ∀ c ∈ sel, c ∈ v.children := by
  rw [reorderChildren] at h
  cases hm : (scs.mapM (fun sc =>
      match lookupChild v.children sc.name with
      | some c => Except.ok c
      | none => Except.error Err.childMismatch) : Except Err (List TNode)) with
  | error e =>
    rw [hm] at h
    exact Except.noConfusion h
  | ok sel =>
    rw [hm] at h
    have hv1 : TNode.mk v.name v.length sel = v1 :=
      Except.ok.inj (show Except.ok (TNode.mk v.name v.length sel)
        = Except.ok v1 from h)
    obtain ⟨hn, hmem⟩ := reorder_mapM_exact v.children scs sel hm
    exact ⟨sel, hv1.symm, hn, hmem⟩

theorem reorderChildren_noop {v : TNode} {scs : List TNode}
    (hnames : v.children.map TNode.name = scs.map TNode.name)
    (hnd : (v.children.map TNode.name).Nodup) :
    reorderChildren v scs = .ok v := by
  have hmap : ∀ (scs2 cs2 : List TNode),
      cs2.map TNode.name = scs2.map TNode.name →
      (∀ c ∈ cs2, lookupChild v.children c.name = some c) →
      (scs2.mapM (fun sc =>
          match lookupChild v.children sc.name with
          | some c => Except.ok c
          | none => Except.error Err.childMismatch) : Except Err (List TNode))
        = .ok cs2 := by
    intro scs2
    induction scs2 with
    | nil =>
      intro cs2 hn _
      have hcs2 : cs2 = [] := List.map_eq_nil_iff.mp (by rw [hn]; rfl)
      subst hcs2
      rfl
    | cons sc scs2 ih =>
      intro cs2 hn hlk
      cases cs2 with
      | nil => cases hn
      | cons c cs2' =>
        rw [List.map_cons, List.map_cons] at hn
        injection hn with hn1 hn2
        rw [List.mapM_cons, ← hn1, hlk c (List.mem_cons_self _ _),
          ih cs2' hn2 (fun d hd => hlk d (List.mem_cons_of_mem c hd))]
        rfl
  have hall : ∀ c ∈ v.children, lookupChild v.children c.name = some c :=
    fun c hc => lookupChild_self hnd hc
  rw [reorderChildren, hmap scs v.children hnames hall]
  show Except.ok (TNode.mk v.name v.length v.children) = Except.ok v
  rw [TNode.eta]

theorem mirrorB_intro {n : Option String} {l : Option ℚ} {cs : List TNode}
    {v : TNode} (h1 : v.name = n)
    (h2 : v.children.map TNode.name = cs.map TNode.name)
    (h3 : mirrorL cs v.children = true) : mirrorB (.mk n l cs) v = true := by
  rw [mirrorB, h1, h2]
  simp [h3]

theorem mirrorB_elim {n : Option String} {l : Option ℚ} {cs : List TNode}
    {v : TNode} (h : mirrorB (.mk n l cs) v = true) :
    v.name = n ∧ v.children.map TNode.name = cs.map TNode.name
      ∧ mirrorL cs v.children = true := by
  rw [mirrorB, Bool.and_eq_true, Bool.and_eq_true] at h
  exact ⟨eq_of_beq h.1.1, eq_of_beq h.1.2, h.2⟩

mutual

theorem mirror_nodes : ∀ (s v : TNode), mirrorB s v = true →
    ∀ X ∈ preT s, X.children ≠ [] →
    ∃ w ∈ preT v, w.name = X.name
      ∧ w.children.map TNode.name = X.children.map TNode.name
  | .mk n l cs, v => fun h X hX hXne => by
    obtain ⟨h1, h2, h3⟩ := mirrorB_elim h
    rw [preT] at hX
    rcases List.mem_cons.mp hX with rfl | hX'
    · exact ⟨v, self_mem_preT v, h1, h2⟩
    · obtain ⟨w, hw, hp⟩ := mirror_nodesL cs v.children h3 X hX' hXne
      refine ⟨w, ?_, hp⟩
      cases v with
      | mk vn vl vcs =>
        rw [preT]
        exact List.mem_cons.mpr (.inr hw)

theorem mirror_nodesL : ∀ (scs ds : List TNode), mirrorL scs ds = true →
    ∀ X ∈ preL scs, X.children ≠ [] →
    ∃ w ∈ preL ds, w.name = X.name
      ∧ w.children.map TNode.name = X.children.map TNode.name
  | [], ds => fun _ X hX _ => by
    rw [preL] at hX
    exact absurd hX (List.not_mem_nil X)
  | c :: scs, ds => fun h X hX hXne => by
    cases ds with
    | nil =>
      rw [mirrorL] at h
      exact Bool.noConfusion h
    | cons d ds =>
      rw [mirrorL, Bool.and_eq_true] at h
      rw [preL] at hX
      rcases List.mem_append.mp hX with hX' | hX'
      · by_cases hce : c.children.isEmpty
        · exfalso
          cases c with
          | mk cn cl ccs =>
            have hceq : ccs = [] := by
              have : ccs.isEmpty = true := hce
              cases ccs with
              | nil => rfl
              | cons a as => cases this
            subst hceq
            rw [preT, preL] at hX'
            rcases List.mem_cons.mp hX' with rfl | hX''
            · exact hXne rfl
            · exact absurd hX'' (List.not_mem_nil X)
        · have hm : mirrorB c d = true := by
            have h1 := h.1
            rw [if_neg hce] at h1
            exact h1
          obtain ⟨w, hw, hp⟩ := mirror_nodes c d hm X hX' hXne
          refine ⟨w, ?_, hp⟩
          rw [preL]
          exact List.mem_append.mpr (.inl hw)
      · obtain ⟨w, hw, hp⟩ := mirror_nodesL scs ds h.2 X hX' hXne
        refine ⟨w, ?_, hp⟩
        rw [preL]
        exact List.mem_append.mpr (.inr hw)

end

theorem foldlM_const : ∀ (l : List TNode) (u : TNode),
    (∀ a ∈ l, orderStep u a = .ok u) → l.foldlM orderStep u = .ok u
  | [], u => fun _ => rfl
  | a :: l, u => fun h => by
    rw [List.foldlM_cons, h a (List.mem_cons_self _ _)]
    show l.foldlM orderStep u = Except.ok u
    exact foldlM_const l u (fun b hb => h b (List.mem_cons_of_mem a hb))

theorem foldlM_ok_each : ∀ (l : List TNode) (u u' : TNode),
    l.foldlM orderStep u = .ok u' → ∀ a ∈ l, ∃ s s', orderStep s a = .ok s'
  | [], u, u' => fun _ a ha => absurd ha (List.not_mem_nil a)
  | b :: l, u, u' => fun h a ha => by
    rw [List.foldlM_cons] at h
    cases hb : orderStep u b with
    | error e =>
      rw [hb] at h
      exact Except.noConfusion h
    | ok u1 =>
      rw [hb] at h
      have h' : l.foldlM orderStep u1 = .ok u' := h
      rcases List.mem_cons.mp ha with rfl | ha'
      · exact ⟨u, u1, hb⟩
      · exact foldlM_ok_each l u1 u' h' a ha'

theorem orderStep_tip {res nsrc : TNode} (h : nsrc.children = []) :
    orderStep res nsrc = .ok res := by
  rw [orderStep, if_pos]
  rw [h]
  rfl

theorem orderStep_internal {res nsrc : TNode} {lbl : String}
    (hne : nsrc.children ≠ []) (hn : nsrc.name = some lbl) (hlbl : lbl ≠ "") :
    orderStep res nsrc
      = match findPathN res (some lbl) with
        | none => .error .labelNotFound
        | some p => updateAt res p (fun n => reorderChildren n nsrc.children) := by
  have hie : ¬(nsrc.children.isEmpty = true) := by
    cases hcs : nsrc.children with
    | nil => exact absurd hcs hne
    | cons a as => exact fun hh => Bool.noConfusion hh
  rw [orderStep, if_neg hie, hn]
  show (if lbl = "" then Except.error Err.missingLabel
    else match findPathN res (some lbl) with
      | none => Except.error Err.labelNotFound
      | some p => updateAt res p (fun n => reorderChildren n nsrc.children)) = _
  rw [if_neg hlbl]

theorem orderStep_ok_name {s s' X : TNode} (hXne : X.children ≠ [])
    (h : orderStep s X = .ok s') : ∃ lbl, X.name = some lbl ∧ lbl ≠ "" := by
  have hie : ¬(X.children.isEmpty = true) := by
    cases hcs : X.children with
    | nil => exact absurd hcs hXne
    | cons a as => exact fun hh => Bool.noConfusion hh
  rw [orderStep, if_neg hie] at h
  cases hn : X.name with
  | none =>
    rw [hn] at h
    exact Except.noConfusion h
  | some lbl =>
    rw [hn] at h
    have h2 : (if lbl = "" then Except.error Err.missingLabel
      else match findPathN s (some lbl) with
        | none => Except.error Err.labelNotFound
        | some p => updateAt s p (fun n => reorderChildren n X.children))
        = Except.ok s' := h
    by_cases hl : lbl = ""
    · rw [if_pos hl] at h2
      exact Except.noConfusion h2
    · exact ⟨lbl, rfl, hl⟩

mutual

theorem findPathN_sound : ∀ (t : TNode) (nm : Option String) (q : List ℕ),
    findPathN t nm = some q → ∃ w, subtreeAt t q = some w ∧ w.name = nm
  | .mk n l cs, nm, q => fun h => by
    rw [findPathN] at h
    by_cases hn : n = nm
    · rw [if_pos hn] at h
      injection h with h
      subst h
      exact ⟨.mk n l cs, subtreeAt_nil _, hn⟩
    · rw [if_neg hn] at h
      obtain ⟨j, c, q', hq, hj, w, hw, hwn⟩ := findPathL_sound cs nm 0 q h
      subst hq
      refine ⟨w, ?_, hwn⟩
      rw [Nat.zero_add,
        subtreeAt_child (show (TNode.mk n l cs).children[j]? = some c from hj)]
      exact hw

theorem findPathL_sound : ∀ (cs : List TNode) (nm : Option String) (k : ℕ)
    (q : List ℕ), findPathL cs nm k = some q →
    ∃ (j : ℕ) (c : TNode) (q' : List ℕ), q = (k + j) :: q' ∧ cs[j]? = some c ∧
      ∃ w, subtreeAt c q' = some w ∧ w.name = nm
  | [], nm, k, q => fun h => by rw [findPathL] at h; cases h
  | c0 :: cs, nm, k, q => fun h => by
    rw [findPathL] at h
    cases hf : findPathN c0 nm with
    | some q0 =>
      rw [hf] at h
      have h2 : some (k :: q0) = some q := h
      injection h2 with h2
      obtain ⟨w, hw, hwn⟩ := findPathN_sound c0 nm q0 hf
      exact ⟨0, c0, q0, by rw [← h2, Nat.add_zero],
        by rw [List.getElem?_cons_zero], w, hw, hwn⟩
    | none =>
      rw [hf] at h
      obtain ⟨j, c, q', hq, hj, hrest⟩ := findPathL_sound cs nm (k + 1) q h
      have harith : k + 1 + j = k + (j + 1) := by omega
      exact ⟨j + 1, c, q', by rw [hq, harith],
        by rw [List.getElem?_cons_succ]; exact hj, hrest⟩

end

theorem preL_eq_bind : ∀ cs : List TNode, preL cs = cs.flatMap preT
  | [] => by rw [preL, List.flatMap_nil]
  | c :: cs => by rw [preL, List.flatMap_cons, preL_eq_bind cs]

theorem namesL_perm {l l' : List TNode} (h : List.Perm l l') :
    List.Perm (namesL l) (namesL l') := by
  rw [namesL, namesL, preL_eq_bind, preL_eq_bind]
  exact (h.flatMap_right preT).map TNode.name

theorem namesL_sublist_mono : ∀ {l l' : List TNode}, List.Sublist l l' →
    List.Sublist (namesL l) (namesL l') := by
  intro l l' h
  induction h with
  | slnil => exact List.Sublist.refl _
  | cons a h ih =>
    rw [namesL_cons]
    exact ih.trans (List.sublist_append_right _ _)
  | cons₂ a h ih =>
    rw [namesL_cons, namesL_cons]
    exact ih.append_left _

theorem namesL_subperm {l l' : List TNode} (h : List.Subperm l l') :
    (namesL l : Multiset (Option String)) ≤ ↑(namesL l') := by
  obtain ⟨l'', hperm, hsub⟩ := h
  have h1 : (namesL l : Multiset (Option String)) = ↑(namesL l'') :=
    (Multiset.coe_eq_coe.mpr (namesL_perm hperm)).symm
  rw [h1]
  exact Multiset.coe_le.mpr (namesL_sublist_mono hsub).subperm

theorem namesT_cons_le {v : TNode} {sel : List TNode}
    (h : (namesL sel : Multiset (Option String)) ≤ ↑(namesL v.children)) :
    (namesT (TNode.mk v.name v.length sel) : Multiset (Option String))
      ≤ ↑(namesT v) := by
  cases v with
  | mk vn vl vcs =>
    rw [namesT_mk, namesT_mk, ← Multiset.cons_coe, ← Multiset.cons_coe]
    exact Multiset.cons_le_cons _ h

mutual

theorem runT_spec : ∀ (s u u' : TNode),
    (namesT s).Nodup → (namesT u).Nodup →
    (preT s).foldlM orderStep u = .ok u' →
    ((namesT u' : Multiset (Option String)) ≤ ↑(namesT u)) ∧
    (s.children = [] → u' = u) ∧
    (s.children ≠ [] → ∃ p v v',
      findPathN u s.name = some p ∧ subtreeAt u p = some v ∧
      updateAt u p (fun _ => Except.ok v') = .ok u' ∧
      mirrorB s v' = true ∧ v'.name = s.name ∧
      ((namesT v' : Multiset (Option String)) ≤ ↑(namesT v)))
  | .mk sn sl scs, u, u' => fun hs hu hrun => by
    rw [preT, List.foldlM_cons] at hrun
    cases horder : orderStep u (TNode.mk sn sl scs) with
    | error e =>
      rw [horder] at hrun
      exact Except.noConfusion hrun
    | ok u1 =>
      rw [horder] at hrun
      have hrun2 : (preL scs).foldlM orderStep u1 = .ok u' := hrun
      cases scs with
      | nil =>
        have hts : orderStep u (TNode.mk sn sl []) = .ok u := orderStep_tip rfl
        rw [hts] at horder
        have hu1u : u = u1 := Except.ok.inj horder
        rw [preL] at hrun2
        have hu'1 : u1 = u' :=
          Except.ok.inj (show Except.ok u1 = Except.ok u' from hrun2)
        have huu' : u' = u := by rw [← hu'1, ← hu1u]
        subst huu'
        exact ⟨le_refl _, fun _ => rfl, fun hne => absurd rfl hne⟩
      | cons c0 rest =>
        obtain ⟨lbl, hname, hlbl⟩ :=
          orderStep_ok_name (show (TNode.mk sn sl (c0 :: rest)).children ≠ []
            from fun hh => List.noConfusion hh) horder
        have hsn : sn = some lbl := hname
        rw [orderStep_internal (fun hh => List.noConfusion hh) hname hlbl]
          at horder
        cases hfp : findPathN u (some lbl) with
        | none =>
          rw [hfp] at horder
          exact Except.noConfusion horder
        | some p =>
          rw [hfp] at horder
          have horder2 : updateAt u p
              (fun n => reorderChildren n (TNode.mk sn sl (c0 :: rest)).children)
              = .ok u1 := horder
          obtain ⟨v, v1, hsub, hreo, hrep⟩ := updateAt_ok_inv p u u1 _ horder2
          obtain ⟨sel, hv1eq, hselnames, hselmem⟩ := reorderChildren_ok_inv hreo
          subst hv1eq
          obtain ⟨v0, hv0, hv0n⟩ := findPathN_sound u (some lbl) p hfp
          have hvv0 : v0 = v := by
            rw [hv0] at hsub
            exact Option.some.inj hsub
          have hvn : v.name = some lbl := by
            rw [← hvv0]
            exact hv0n
          have hndL : (namesL (c0 :: rest)).Nodup := by
            rw [namesT_mk, List.nodup_cons] at hs
            exact hs.2
          have hscnames : ((c0 :: rest).map TNode.name).Nodup :=
            hndL.sublist (childNames_sublist (c0 :: rest))
          have hselnd : (sel.map TNode.name).Nodup := by
            rw [hselnames]
            exact hscnames
          have hselsub : List.Subperm sel v.children :=
            (List.Nodup.of_map TNode.name hselnd).subperm
              (fun c hc => hselmem c hc)
          have hselle : (namesL sel : Multiset (Option String))
              ≤ ↑(namesL v.children) := namesL_subperm hselsub
          have hv1le : (namesT (TNode.mk v.name v.length sel)
              : Multiset (Option String)) ≤ ↑(namesT v) := namesT_cons_le hselle
          have hu1le : (namesT u1 : Multiset (Option String)) ≤ ↑(namesT u) :=
            names_le_of_replace hsub hrep hv1le
          have hu1nd : (namesT u1).Nodup := by
            rw [← Multiset.coe_nodup]
            exact Multiset.nodup_of_le hu1le (Multiset.coe_nodup.mpr hu)
          have hanchor : subtreeAt u1 p
              = some (.mk v.name v.length ([] ++ sel)) := by
            rw [List.nil_append]
            exact subtreeAt_replace p u u1 _ hrep
          obtain ⟨hle2, pending', hrep2, hpn, hmir, hple⟩ :=
            runL_spec (c0 :: rest) u1 u' p v.name v.length [] sel hndL hu1nd
              hanchor hselnames hrun2
          have hrep' : updateAt u (p ++ [])
              (fun _ => Except.ok (TNode.mk v.name v.length sel)) = .ok u1 := by
            rw [List.append_nil]
            exact hrep
          have hcomp := replace_replace p [] u u1 (TNode.mk v.name v.length sel)
            (TNode.mk v.name v.length ([] ++ pending')) hrep'
          have hrepc : updateAt u p
              (fun _ => Except.ok (TNode.mk v.name v.length ([] ++ pending')))
              = .ok u' := by
            rw [hcomp]
            exact hrep2
          have hmirrorB : mirrorB (TNode.mk sn sl (c0 :: rest))
              (TNode.mk v.name v.length ([] ++ pending')) = true := by
            apply mirrorB_intro
            · show v.name = sn
              rw [hvn, hsn]
            · show ([] ++ pending').map TNode.name
                = (c0 :: rest).map TNode.name
              rw [List.nil_append]
              exact hpn
            · show mirrorL (c0 :: rest) ([] ++ pending') = true
              rw [List.nil_append]
              exact hmir
          refine ⟨hle2.trans hu1le, fun hnil => List.noConfusion hnil,
            fun _ => ?_⟩
          refine ⟨p, v, TNode.mk v.name v.length ([] ++ pending'), ?_, hsub,
            hrepc, hmirrorB, ?_, ?_⟩
          · show findPathN u sn = some p
            rw [hsn]
            exact hfp
          · show v.name = sn
            rw [hvn, hsn]
          · rw [List.nil_append]
            exact namesT_cons_le (hple.trans hselle)

theorem runL_spec : ∀ (scs : List TNode) (u1 u' : TNode) (p : List ℕ)
    (nm : Option String) (ln : Option ℚ) (done pending : List TNode),
    (namesL scs).Nodup → (namesT u1).Nodup →
    subtreeAt u1 p = some (.mk nm ln (done ++ pending)) →
    pending.map TNode.name = scs.map TNode.name →
    (preL scs).foldlM orderStep u1 = .ok u' →
    ((namesT u' : Multiset (Option String)) ≤ ↑(namesT u1)) ∧
    ∃ pending',
      updateAt u1 p (fun _ => Except.ok (.mk nm ln (done ++ pending'))) = .ok u'
      ∧ pending'.map TNode.name = scs.map TNode.name
      ∧ mirrorL scs pending' = true
      ∧ ((namesL pending' : Multiset (Option String)) ≤ ↑(namesL pending))
  | [], u1, u', p, nm, ln, done, pending =>
    fun _ hu1 hanchor hnames hrun => by
    rw [preL] at hrun
    have hu'1 : u1 = u' :=
      Except.ok.inj (show Except.ok u1 = Except.ok u' from hrun)
    have hpe : pending = [] :=
      List.map_eq_nil_iff.mp (by rw [hnames]; rfl)
    subst hpe
    subst hu'1
    exact ⟨le_refl _, [], updateAt_noop p u1 _ _ hanchor rfl, rfl, rfl,
      le_refl _⟩
  | c :: scs, u1, u', p, nm, ln, done, pending =>
    fun hnd hu1 hanchor hnames hrun => by
    cases pending with
    | nil =>
      rw [List.map_nil, List.map_cons] at hnames
      exact List.noConfusion hnames
    | cons q0 rest =>
      rw [List.map_cons, List.map_cons] at hnames
      injection hnames with hq0name hrestnames
      rw [preL, List.foldlM_append] at hrun
      cases h2 : (preT c).foldlM orderStep u1 with
      | error e =>
        rw [h2] at hrun
        exact Except.noConfusion hrun
      | ok u2 =>
        rw [h2] at hrun
        have hrun2 : (preL scs).foldlM orderStep u2 = .ok u' := hrun
        have hndc : (namesT c).Nodup := by
          rw [namesL_cons, List.nodup_append] at hnd
          exact hnd.1
        have hndscs : (namesL scs).Nodup := by
          rw [namesL_cons, List.nodup_append] at hnd
          exact hnd.2.1
        have hq0 : subtreeAt u1 (p ++ [done.length]) = some q0 := by
          refine subtreeAt_append_some hanchor ?_
          rw [subtreeAt_child
            (show (TNode.mk nm ln (done ++ q0 :: rest)).children[done.length]?
              = some q0 from getElem_mid done q0 rest)]
          exact subtreeAt_nil q0
        obtain ⟨hcle, hctip, hcint⟩ := runT_spec c u1 u2 hndc hu1 h2
        by_cases hcc : c.children = []
        · have hu2 : u2 = u1 := hctip hcc
          subst hu2
          have hanchor2 : subtreeAt u2 p
              = some (.mk nm ln ((done ++ [q0]) ++ rest)) := by
            rw [List.append_assoc, List.singleton_append]
            exact hanchor
          obtain ⟨hle2, pending', hrep2, hpn, hmir, hple⟩ :=
            runL_spec scs u2 u' p nm ln (done ++ [q0]) rest hndscs hu1
              hanchor2 hrestnames hrun2
          refine ⟨hle2, q0 :: pending', ?_, ?_, ?_, ?_⟩
          · rw [show done ++ q0 :: pending' = (done ++ [q0]) ++ pending'
              from by rw [List.append_assoc, List.singleton_append]]
            exact hrep2
          · rw [List.map_cons, List.map_cons, hpn, hq0name]
          · rw [mirrorL, Bool.and_eq_true]
            refine ⟨?_, hmir⟩
            rw [if_pos (show c.children.isEmpty = true by rw [hcc]; rfl)]
          · rw [namesL_cons, namesL_cons]
            show (namesT q0 : Multiset (Option String)) + ↑(namesL pending')
              ≤ ↑(namesT q0) + ↑(namesL rest)
            exact add_le_add_left hple _
        · obtain ⟨p1, v, v', hfp1, hsubv, hrepv, hmirv, hv'nm, hv'le⟩ :=
            hcint hcc
          have hfp2 : findPathN u1 c.name = some (p ++ [done.length]) :=
            findPathN_unique u1 (p ++ [done.length]) q0 c.name hu1 hq0 hq0name
          have hp1 : p1 = p ++ [done.length] := by
            rw [hfp1] at hfp2
            exact Option.some.inj hfp2
          subst hp1
          have hvq0 : q0 = v := by
            rw [hq0] at hsubv
            exact Option.some.inj hsubv
          subst hvq0
          have hinner : updateAt (TNode.mk nm ln (done ++ q0 :: rest))
              [done.length] (fun _ => Except.ok v')
              = .ok (TNode.mk nm ln (done ++ v' :: rest)) := by
            rw [updateAt_cons_some (getElem_mid done q0 rest), updateAt_nil]
            show Except.ok
                (TNode.mk nm ln ((done ++ q0 :: rest).set done.length v')) = _
            rw [set_mid]
          have hrepu2 : updateAt u1 p
              (fun _ => Except.ok (TNode.mk nm ln (done ++ v' :: rest)))
              = .ok u2 := by
            have h3 : updateAt u1 (p ++ [done.length])
                (fun _ => Except.ok v') = .ok u2 := hrepv
            rw [updateAt_append] at h3
            rw [updateAt_congr_at p u1 (TNode.mk nm ln (done ++ q0 :: rest))
              (fun _ => Except.ok (TNode.mk nm ln (done ++ v' :: rest)))
              (fun v0 => updateAt v0 [done.length] (fun _ => Except.ok v'))
              hanchor ?_]
            · exact h3
            · show Except.ok (TNode.mk nm ln (done ++ v' :: rest))
                = updateAt (TNode.mk nm ln (done ++ q0 :: rest)) [done.length]
                    (fun _ => Except.ok v')
              rw [hinner]
          have hu2nd : (namesT u2).Nodup := by
            rw [← Multiset.coe_nodup]
            exact Multiset.nodup_of_le hcle (Multiset.coe_nodup.mpr hu1)
          have hanchor2 : subtreeAt u2 p
              = some (.mk nm ln ((done ++ [v']) ++ rest)) := by
            rw [List.append_assoc, List.singleton_append]
            exact subtreeAt_replace p u1 u2 _ hrepu2
          obtain ⟨hle2, pending', hrep2, hpn, hmir, hple⟩ :=
            runL_spec scs u2 u' p nm ln (done ++ [v']) rest hndscs hu2nd
              hanchor2 hrestnames hrun2
          have hcompose := replace_replace p [done.length] u1 u2 v'
            (TNode.mk nm ln ((done ++ [v']) ++ pending')) hrepv
          have hrepfinal : updateAt u1 p
              (fun _ => Except.ok (TNode.mk nm ln ((done ++ [v']) ++ pending')))
              = .ok u' := by
            rw [hcompose]
            exact hrep2
          refine ⟨hle2.trans hcle, v' :: pending', ?_, ?_, ?_, ?_⟩
          · rw [show done ++ v' :: pending' = (done ++ [v']) ++ pending'
              from by rw [List.append_assoc, List.singleton_append]]
            exact hrepfinal
          · rw [List.map_cons, List.map_cons, hpn, hv'nm]
          · rw [mirrorL, Bool.and_eq_true]
            refine ⟨?_, hmir⟩
            have hie : ¬(c.children.isEmpty = true) := by
              intro hh
              exact hcc (List.isEmpty_iff.mp hh)
            rw [if_neg hie]
            exact hmirv
          · rw [namesL_cons, namesL_cons]
            show (namesT v' : Multiset (Option String)) + ↑(namesL pending')
              ≤ ↑(namesT q0) + ↑(namesL rest)
            exact add_le_add hv'le hple

end

/-- C9 amended: `restore_node_order` IS idempotent on the class of
inputs the notebook documents — those whose node names are unique within
each tree: if every node name of `src` and of `trg` occurs once in its
tree and the first call succeeds, running the function again on its own
output succeeds and returns that output unchanged. -/
theorem c9_amended (src trg r : TNode)
    (hs : (namesT src).Nodup)
    (ht : (namesT trg).Nodup)
    (h1 : restoreNodeOrder src trg = .ok r) :
    restoreNodeOrder src r = .ok r := by
  have hrun : (preT src).foldlM orderStep trg = .ok r := h1
  obtain ⟨hle, htip, hint⟩ := runT_spec src trg r hs ht hrun
  have hrnd : (namesT r).Nodup := by
    rw [← Multiset.coe_nodup]
    exact Multiset.nodup_of_le hle (Multiset.coe_nodup.mpr ht)
  have hstep : ∀ X ∈ preT src, orderStep r X = .ok r := by
    intro X hX
    by_cases hXc : X.children = []
    · exact orderStep_tip hXc
    · obtain ⟨sX, sX', hsX⟩ := foldlM_ok_each (preT src) trg r hrun X hX
      obtain ⟨lbl, hXn, hlbl⟩ := orderStep_ok_name hXc hsX
      cases hsrc_c : src.children with
      | nil =>
        exfalso
        cases src with
        | mk n0 l0 cs0 =>
          have hcs0 : cs0 = [] := hsrc_c
          subst hcs0
          rw [preT, preL] at hX
          rcases List.mem_cons.mp hX with rfl | hX'
          · exact hXc hsrc_c
          · exact absurd hX' (List.not_mem_nil X)
      | cons c0 rest =>
        have hne : src.children ≠ [] := by
          rw [hsrc_c]
          exact fun hh => List.noConfusion hh
        obtain ⟨p, v, v', hfp, hsub, hrep, hmir, hv'n, hv'le⟩ := hint hne
        have hv'mem : v' ∈ preT r :=
          subtreeAt_mem_preT p r v' (subtreeAt_replace p trg r v' hrep)
        obtain ⟨w, hwmem, hwname, hwchild⟩ := mirror_nodes src v' hmir X hX hXc
        have hwr : w ∈ preT r := preT_trans hv'mem hwmem
        obtain ⟨q, hq⟩ := path_of_mem_preT r w hwr
        have hfq : findPathN r X.name = some q :=
          findPathN_unique r q w X.name hrnd hq hwname
        have hXnd : (X.children.map TNode.name).Nodup := by
          have hx1 : (namesT X).Nodup := hs.sublist (namesT_sublist src X hX)
          have hx2 : (namesL X.children).Nodup := by
            cases X with
            | mk xn xl xcs =>
              rw [namesT_mk, List.nodup_cons] at hx1
              exact hx1.2
          exact hx2.sublist (childNames_sublist X.children)
        have hwnd : (w.children.map TNode.name).Nodup := by
          rw [hwchild]
          exact hXnd
        have hnoop : reorderChildren w X.children = .ok w :=
          reorderChildren_noop hwchild hwnd
        have hfq' : findPathN r (some lbl) = some q := by
          rw [← hXn]
          exact hfq
        rw [orderStep_internal hXc hXn hlbl, hfq']
        show updateAt r q (fun n => reorderChildren n X.children) = Except.ok r
        exact updateAt_noop q r w _ hq hnoop
  show (preT src).foldlM orderStep r = .ok r
  exact foldlM_const (preT src) r hstep

theorem c9_amended_witness : restoreNodeOrder c9src c9res = .ok c9res :=
  c9_amended c9src c9trg c9res (by with_unfolding_all decide)
    (by with_unfolding_all decide) (by with_unfolding_all rfl)

/-- C9 counterexample: with the duplicate internal label `X` in the
source (tolerated by the code, which only rejects empty labels), the
first `restore_node_order` call succeeds — both `X` passes resolve to
the same first-in-traversal-order `X` node, the second pass dropping its
tip `b` — but re-running it on its own output fails with
`ChildMismatch`, so the operation is not idempotent as stated. -/
theorem c9_counterexample :
    restoreNodeOrder dupSrc dupTrg = .ok dupOnce ∧
    restoreNodeOrder dupSrc dupOnce = .error .childMismatch := by
  exact ⟨by with_unfolding_all rfl, by with_unfolding_all rfl⟩

end Wol
